import Mathlib

/-
  Verification of the chess-AI move-selection core (thunopro/chess-ai).

  The two source files are `src/App.tsx` (foreground fallback AI and the
  dispatch coordinator of the React component) and the unnamed web-worker
  file (background AI).  The rules engine (chess.js) is an external
  collaborator; it is modelled as an abstract `Rules` structure exposing
  exactly the operations the source calls on a `Chess` object.
-/

namespace ChessAI

/-!  Data model and transcriptions (all definitions; the theorem
development follows after the last definition). -/

/-- Extended integers: the JavaScript numbers used by the search are the
integers produced by `evaluate` plus the sentinels `-Infinity` and
`Infinity` used to initialise `val`, `alpha`, `beta` and `bestScore`. -/
inductive EInt where
  | negInf : EInt
  | fin : Int → EInt
  | posInf : EInt
deriving DecidableEq

namespace EInt

/-- Boolean order on `EInt`, mirroring JavaScript `<=` on these numbers. -/
def leB : EInt → EInt → Bool
  | negInf, _ => true
  | _, posInf => true
  | fin a, fin b => a ≤ b
  | fin _, negInf => false
  | posInf, fin _ => false
  | posInf, negInf => false

instance : LE EInt := ⟨fun a b => leB a b = true⟩

/-- Unfolding of `≤` on `EInt` to `leB` (a definition so the order instance
below can use it). -/
def le_def (a b : EInt) : a ≤ b ↔ leB a b = true := Iff.rfl

instance : DecidableRel (fun a b : EInt => a ≤ b) :=
  fun a b => decidable_of_iff (leB a b = true) (le_def a b).symm

instance : LinearOrder EInt where
  le_refl a := by cases a <;> simp [le_def, leB]
  le_trans a b c := by
    cases a <;> cases b <;> cases c <;> simp [le_def, leB] <;> omega
  le_antisymm a b := by
    cases a <;> cases b <;> simp [le_def, leB] <;> omega
  le_total a b := by
    cases a <;> cases b <;> simp [le_def, leB] <;> omega
  decidableLE := inferInstance

/-- Finiteness predicate: the value is neither `-Infinity` nor `Infinity`. -/
def isFin : EInt → Prop := fun e => ∃ n, e = fin n

end EInt

/-- Piece kinds of chess.js (`p`, `n`, `b`, `r`, `q`, `k`). -/
inductive PKind where
  | p | n | b | r | q | k
deriving DecidableEq

/-- The `MoveObj` type of the source: `{ from, to, promotion? }`.
(`from` is a Lean keyword, so the fields are `fromSq`/`toSq`.) -/
structure MoveObj where
  fromSq : String
  toSq : String
  promotion : Option PKind
deriving DecidableEq

/-- A verbose move as returned by chess.js `moves({ verbose: true })`:
the fields the source reads are `from`, `to`, `promotion`, `piece`,
`captured`, and `san`. -/
structure MoveExt where
  fromSq : String
  toSq : String
  promotion : Option PKind
  piece : PKind
  captured : Option PKind
  san : String
deriving DecidableEq

/-- One occupied square of `game.board()`: the source reads `sq.type`
and `sq.color === 'w'`. -/
structure SqPiece where
  tp : PKind
  colorW : Bool
deriving DecidableEq

/-- The rules engine (chess.js), an external collaborator, modelled at the
interface boundary used by the source: every field is an operation the
source calls on a `Chess` instance.  `apply` is the effect of
`game.move(toShort(m))` for `m` drawn from `moves` (which the contract of
§6 of the spec requires to succeed); `tryApply` is `game.move(obj)` for an
arbitrary move object, `none` when the engine rejects it. -/
structure Rules (Pos : Type) where
  moves : Pos → List MoveExt
  apply : Pos → MoveExt → Pos
  tryApply : Pos → MoveObj → Option Pos
  board : Pos → List (List (Option SqPiece))
  turnW : Pos → Bool
  inCheck : Pos → Bool
  isCheckmate : Pos → Bool
  isStalemate : Pos → Bool
  isDraw : Pos → Bool
  isInsufficientMaterial : Pos → Bool
  isThreefoldRepetition : Pos → Bool
  isGameOver : Pos → Bool
  fen : Pos → String
  load : String → Pos

/-- The live chess.js instance shared by one search invocation: the current
position plus the undo history.  `game.move` pushes, `game.undo` pops. -/
structure GState (Pos : Type) where
  cur : Pos
  hist : List Pos
deriving DecidableEq

/-- Effect of `game.move(toShort(m))` for a legal `m` on the live instance. -/
def GState.push {Pos : Type} (R : Rules Pos) (s : GState Pos) (m : MoveExt) :
    GState Pos :=
  ⟨R.apply s.cur m, s.cur :: s.hist⟩

/-- Effect of `game.undo()`: restore the previous position (no-op on an
empty history, which chess.js signals by returning `null`). -/
def GState.pop {Pos : Type} (s : GState Pos) : GState Pos :=
  match s.hist with
  | [] => s
  | p :: h => ⟨p, h⟩

namespace mainjs

variable {Pos : Type}

/-- Transcribes `const VAL = { p: 100, n: 320, b: 330, r: 500, q: 900, k: 0 }`
(App.tsx line 9).  The lookups `VAL[x] ?? 0` in the source always hit a
key, so the total function is the faithful model. -/
def VAL : PKind → Int
  | .p => 100
  | .n => 320
  | .b => 330
  | .r => 500
  | .q => 900
  | .k => 0

/-- Transcribes `toShort` (App.tsx lines 12-14): keep `from`/`to` and the promotion
piece when present. -/
def toShort (m : MoveExt) : MoveObj :=
  ⟨m.fromSq, m.toSq, m.promotion⟩

/-- Transcribes `randomPick` (App.tsx lines 16-20).  `x` models the value drawn from
`Math.random()`, a rational in `[0, 1)`; the selected index is
`Math.floor(x * ms.length)`. -/
def randomPick (R : Rules Pos) (g : Pos) (x : ℚ) : Option MoveObj :=
  let ms := R.moves g
  if ms.isEmpty then none
  else (ms.get? (Int.toNat ⌊x * (ms.length : ℚ)⌋)).map toShort

/-- The per-move score of `greedyPick` (App.tsx lines 27-31): capture
bonus `VAL[captured] - VAL[piece] + 1`, then `+1e9` if the SAN marks
mate, else `+5` if it marks check. -/
def moveScore (m : MoveExt) : Int :=
  (match m.captured with
   | some c => VAL c - VAL m.piece + 1
   | none => 0) +
  (if m.san.data.contains '#' then 1000000000
   else if m.san.data.contains '+' then 5 else 0)

/-- The accumulation loop of `greedyPick` (App.tsx lines 25-33): track
`(best, bestScore)`, replacing on strict improvement `s > bestScore`. -/
def greedyGo : List MoveExt → Option MoveExt → Int → Option MoveExt × Int
  | [], best, bs => (best, bs)
  | m :: ms, best, bs =>
    let s := moveScore m
    if bs < s then greedyGo ms (some m) s else greedyGo ms best bs

/-- Transcribes `greedyPick` (App.tsx lines 22-35).  `bestScore` starts at `-1e15`;
if no move ever exceeds it the source falls back to a random legal move
(`x` models that `Math.random()` draw). -/
def greedyPick (R : Rules Pos) (g : Pos) (x : ℚ) : Option MoveObj :=
  let ms := R.moves g
  if ms.isEmpty then none
  else
    match (greedyGo ms none (-(10 ^ 15))).1 with
    | some b => some (toShort b)
    | none => (ms.get? (Int.toNat ⌊x * (ms.length : ℚ)⌋)).map toShort

/-- Transcribes `evaluate` (App.tsx lines 37-52): material sum over the board, the
mobility term `±min(legal, 30)`, the check term `∓15`, then the terminal
overrides (checkmate first, then the draw conditions). -/
def evaluate (R : Rules Pos) (g : Pos) : Int :=
  let material :=
    ((R.board g).map (fun row =>
      (row.map (fun sq =>
        match sq with
        | none => 0
        | some s => if s.colorW then VAL s.tp else -VAL s.tp)).sum)).sum
  let turn := R.turnW g
  let legal : Int := (R.moves g).length
  let score1 := material + (if turn then 1 else -1) * min legal 30
  let score2 := if R.inCheck g then score1 + (if turn then -15 else 15) else score1
  if R.isCheckmate g then (if turn then -1000000000 else 1000000000)
  else if R.isDraw g || R.isStalemate g || R.isInsufficientMaterial g
      || R.isThreefoldRepetition g then 0
  else score2

/-- The maximizing loop of `search` (App.tsx lines 64-74): for each move,
recurse on the child (the child value function `f` is the recursive call
at the current position's successor), update `val` and `alpha`, break on
`alpha >= beta`. -/
def goMax (f : MoveExt → EInt → EInt → EInt) :
    List MoveExt → EInt → EInt → EInt → EInt
  | [], val, _, _ => val
  | m :: ms, val, alpha, beta =>
    let child := f m alpha beta
    let val' := max val child
    let alpha' := max alpha val'
    if beta ≤ alpha' then val' else goMax f ms val' alpha' beta

/-- The minimizing loop of `search` (App.tsx lines 75-86). -/
def goMin (f : MoveExt → EInt → EInt → EInt) :
    List MoveExt → EInt → EInt → EInt → EInt
  | [], val, _, _ => val
  | m :: ms, val, alpha, beta =>
    let child := f m alpha beta
    let val' := min val child
    let beta' := min beta val'
    if beta' ≤ alpha then val' else goMin f ms val' alpha beta'

/-- Transcribes `search` (App.tsx lines 59-87): depth-limited alpha-beta over
`evaluate`, returning `evaluate` at depth 0, on game over, or on an
empty move list. -/
def search (R : Rules Pos) : Nat → Pos → EInt → EInt → EInt
  | 0, g, _, _ => .fin (evaluate R g)
  | d + 1, g, alpha, beta =>
    if R.isGameOver g then .fin (evaluate R g)
    else
      let mv := R.moves g
      if mv.isEmpty then .fin (evaluate R g)
      else if R.turnW g then
        goMax (fun m a b => search R d (R.apply g m) a b) mv .negInf alpha beta
      else
        goMin (fun m a b => search R d (R.apply g m) a b) mv .posInf alpha beta

/-- The root loop of `minimaxPickMain` (App.tsx lines 89-96): track
`(best, bestScore)` over the root moves, replacing on strict improvement
in the AI's favourable direction (`v > bestScore` for White,
`v < bestScore` for Black). -/
def rootGo (f : MoveExt → EInt) (aiWhite : Bool) :
    List MoveExt → Option MoveExt × EInt → Option MoveExt × EInt
  | [], acc => acc
  | m :: ms, (best, bs) =>
    let v := f m
    if (if aiWhite then bs < v else v < bs) then rootGo f aiWhite ms (some m, v)
    else rootGo f aiWhite ms (best, bs)

/-- Transcribes the `minimaxPickMain` root computation (App.tsx lines 54-97), kept as the
pair `(best, bestScore)`; each root move's subtree is searched with the
full window `(-Infinity, Infinity)` at depth `depthLimit - 1`. -/
def minimaxRoot (R : Rules Pos) (g : Pos) (depthLimit : Nat)
    (aiColorW : Bool) : Option MoveExt × EInt :=
  let root := R.moves g
  if root.isEmpty then (none, if aiColorW then .negInf else .posInf)
  else
    rootGo (fun m => search R (depthLimit - 1) (R.apply g m) .negInf .posInf)
      aiColorW root (none, if aiColorW then .negInf else .posInf)

/-- Transcribes `minimaxPickMain` (App.tsx lines 54-98): the selected move. -/
def minimaxPickMain (R : Rules Pos) (g : Pos) (depthLimit : Nat)
    (aiColorW : Bool) : Option MoveObj :=
  if (R.moves g).isEmpty then none
  else (minimaxRoot R g depthLimit aiColorW).1.map toShort

/-- Strategy mode (`type AiMode`, App.tsx line 6). -/
inductive AiMode where
  | random | greedy | minimax
deriving DecidableEq

/-- The strategy dispatch of `doFallback` (App.tsx lines 157-160). -/
def fallbackPick (R : Rules Pos) (mode : AiMode) (g : Pos) (depth : Nat)
    (aiColorW : Bool) (x : ℚ) : Option MoveObj :=
  match mode with
  | .random => randomPick R g x
  | .greedy => greedyPick R g x
  | .minimax => minimaxPickMain R g depth aiColorW

end mainjs

namespace workerjs

variable {Pos : Type}

/-- Transcribes `const VAL = ...` (worker line 15). -/
def VAL : PKind → Int
  | .p => 100
  | .n => 320
  | .b => 330
  | .r => 500
  | .q => 900
  | .k => 0

/-- Transcribes `toShort` (worker lines 18-21). -/
def toShort (m : MoveExt) : MoveObj :=
  ⟨m.fromSq, m.toSq, m.promotion⟩

/-- Transcribes `randomPicker` (worker lines 23-27). -/
def randomPicker (R : Rules Pos) (g : Pos) (x : ℚ) : Option MoveObj :=
  let ms := R.moves g
  if ms.isEmpty then none
  else (ms.get? (Int.toNat ⌊x * (ms.length : ℚ)⌋)).map toShort

/-- The per-move score of `greedyPicker` (worker lines 35-38). -/
def moveScore (m : MoveExt) : Int :=
  (match m.captured with
   | some c => VAL c - VAL m.piece + 1
   | none => 0) +
  (if m.san.data.contains '#' then 1000000000
   else if m.san.data.contains '+' then 5 else 0)

/-- The accumulation loop of `greedyPicker` (worker lines 33-40). -/
def greedyGo : List MoveExt → Option MoveExt → Int → Option MoveExt × Int
  | [], best, bs => (best, bs)
  | m :: ms, best, bs =>
    let s := moveScore m
    if bs < s then greedyGo ms (some m) s else greedyGo ms best bs

/-- Transcribes `greedyPicker` (worker lines 29-43). -/
def greedyPicker (R : Rules Pos) (g : Pos) (x : ℚ) : Option MoveObj :=
  let ms := R.moves g
  if ms.isEmpty then none
  else
    match (greedyGo ms none (-(10 ^ 15))).1 with
    | some b => some (toShort b)
    | none => (ms.get? (Int.toNat ⌊x * (ms.length : ℚ)⌋)).map toShort

/-- Transcribes `evaluate` (worker lines 46-62). -/
def evaluate (R : Rules Pos) (g : Pos) : Int :=
  let material :=
    ((R.board g).map (fun row =>
      (row.map (fun sq =>
        match sq with
        | none => 0
        | some s => if s.colorW then VAL s.tp else -VAL s.tp)).sum)).sum
  let turn := R.turnW g
  let legal : Int := (R.moves g).length
  let score1 := material + (if turn then 1 else -1) * min legal 30
  let score2 := if R.inCheck g then score1 + (if turn then -15 else 15) else score1
  if R.isCheckmate g then (if turn then -1000000000 else 1000000000)
  else if R.isDraw g || R.isStalemate g || R.isInsufficientMaterial g
      || R.isThreefoldRepetition g then 0
  else score2

/-- The maximizing loop of the worker's `search` (worker lines 74-84). -/
def goMax (f : MoveExt → EInt → EInt → EInt) :
    List MoveExt → EInt → EInt → EInt → EInt
  | [], val, _, _ => val
  | m :: ms, val, alpha, beta =>
    let child := f m alpha beta
    let val' := max val child
    let alpha' := max alpha val'
    if beta ≤ alpha' then val' else goMax f ms val' alpha' beta

/-- The minimizing loop of the worker's `search` (worker lines 85-96). -/
def goMin (f : MoveExt → EInt → EInt → EInt) :
    List MoveExt → EInt → EInt → EInt → EInt
  | [], val, _, _ => val
  | m :: ms, val, alpha, beta =>
    let child := f m alpha beta
    let val' := min val child
    let beta' := min beta val'
    if beta' ≤ alpha then val' else goMin f ms val' alpha beta'

/-- The worker's `search` (worker lines 69-97). -/
def search (R : Rules Pos) : Nat → Pos → EInt → EInt → EInt
  | 0, g, _, _ => .fin (evaluate R g)
  | d + 1, g, alpha, beta =>
    if R.isGameOver g then .fin (evaluate R g)
    else
      let mv := R.moves g
      if mv.isEmpty then .fin (evaluate R g)
      else if R.turnW g then
        goMax (fun m a b => search R d (R.apply g m) a b) mv .negInf alpha beta
      else
        goMin (fun m a b => search R d (R.apply g m) a b) mv .posInf alpha beta

/-- The root loop of `minimaxPick` (worker lines 99-109). -/
def rootGo (f : MoveExt → EInt) (aiWhite : Bool) :
    List MoveExt → Option MoveExt × EInt → Option MoveExt × EInt
  | [], acc => acc
  | m :: ms, (best, bs) =>
    let v := f m
    if (if aiWhite then bs < v else v < bs) then rootGo f aiWhite ms (some m, v)
    else rootGo f aiWhite ms (best, bs)

/-- Transcribes the `minimaxPick` root computation (worker lines 64-110). -/
def minimaxRoot (R : Rules Pos) (g : Pos) (depthLimit : Nat)
    (aiColorW : Bool) : Option MoveExt × EInt :=
  let root := R.moves g
  if root.isEmpty then (none, if aiColorW then .negInf else .posInf)
  else
    rootGo (fun m => search R (depthLimit - 1) (R.apply g m) .negInf .posInf)
      aiColorW root (none, if aiColorW then .negInf else .posInf)

/-- Transcribes `minimaxPick` (worker lines 64-111). -/
def minimaxPick (R : Rules Pos) (g : Pos) (depthLimit : Nat)
    (aiColorW : Bool) : Option MoveObj :=
  if (R.moves g).isEmpty then none
  else (minimaxRoot R g depthLimit aiColorW).1.map toShort

/-- The request type `Req` of the worker (worker lines 4-10), with the
`Math.random()` draw the worker would make carried alongside. -/
structure Req where
  id : Nat
  fen : String
  mode : mainjs.AiMode
  depth : Nat
  aiColorW : Bool
deriving DecidableEq

/-- The worker's `onmessage` body (worker lines 113-123): load the FEN
into a fresh `Chess`, dispatch on the mode, answer `{ id, move }`. -/
def handle (R : Rules Pos) (req : Req) (x : ℚ) : Nat × Option MoveObj :=
  let game := R.load req.fen
  let move :=
    match req.mode with
    | .random => randomPicker R game x
    | .greedy => greedyPicker R game x
    | .minimax => minimaxPick R game req.depth req.aiColorW
  (req.id, move)

end workerjs

namespace spec

variable {Pos : Type}

/-- From the spec (§4.4, "Correctness requirement"): the unpruned full
minimax search of the same depth over the same game tree, with the same
evaluator and the same move-enumeration order.  No alpha-beta window:
every child of a node is evaluated. -/
def minimax (R : Rules Pos) : Nat → Pos → EInt
  | 0, g => .fin (mainjs.evaluate R g)
  | d + 1, g =>
    if R.isGameOver g then .fin (mainjs.evaluate R g)
    else
      let mv := R.moves g
      if mv.isEmpty then .fin (mainjs.evaluate R g)
      else if R.turnW g then
        mv.foldl (fun v m => max v (minimax R d (R.apply g m))) .negInf
      else
        mv.foldl (fun v m => min v (minimax R d (R.apply g m))) .posInf

/-- Root selection of the unpruned search (spec §4.4 "Root selection"):
identical strict-improvement tracking, but each root child is scored by
the unpruned `minimax`. -/
def minimaxRootFull (R : Rules Pos) (g : Pos) (depthLimit : Nat)
    (aiColorW : Bool) : Option MoveExt × EInt :=
  let root := R.moves g
  if root.isEmpty then (none, if aiColorW then .negInf else .posInf)
  else
    mainjs.rootGo (fun m => minimax R (depthLimit - 1) (R.apply g m))
      aiColorW root (none, if aiColorW then .negInf else .posInf)

/-- From the spec (§4.3 / C9): the Greedy Strategy "returns the first
move in enumeration order achieving the maximum score".  The maximum is
taken over the one-ply scores of all legal moves; `find?` picks the
first achiever. -/
def greedyPick (R : Rules Pos) (g : Pos) : Option MoveObj :=
  match R.moves g with
  | [] => none
  | m :: t =>
    let maxv := t.foldl (fun a m2 => max a (mainjs.moveScore m2)) (mainjs.moveScore m)
    (((m :: t).find? (fun m2 => mainjs.moveScore m2 == maxv)).map mainjs.toShort)

/-- From the spec (§4.1, steps 1-3 / C7): sum of material values over all
occupied squares (White adds, Black subtracts), plus `min(legal, 30)` in
the side to move's favour, plus `-15`/`+15` if the side to move is in
check. -/
def evaluate (R : Rules Pos) (g : Pos) : Int :=
  (((R.board g).flatten.filterMap id).map
      (fun s => if s.colorW then mainjs.VAL s.tp else -mainjs.VAL s.tp)).sum
  + (if R.turnW g then min ((R.moves g).length : Int) 30
     else -min ((R.moves g).length : Int) 30)
  + (if R.inCheck g then (if R.turnW g then -15 else 15) else 0)

end spec

namespace mainjs

variable {Pos : Type}

/-- Stateful maximizing loop (App.tsx lines 64-74, with the
`game.move(toShort(m))` / `game.undo()` pair made explicit). -/
def goMaxS (childS : GState Pos → EInt → EInt → EInt × GState Pos)
    (R : Rules Pos) :
    List MoveExt → GState Pos → EInt → EInt → EInt → EInt × GState Pos
  | [], s, val, _, _ => (val, s)
  | m :: ms, s, val, alpha, beta =>
    let r := childS (s.push R m) alpha beta
    let s2 := r.2.pop
    let val' := max val r.1
    let alpha' := max alpha val'
    if beta ≤ alpha' then (val', s2) else goMaxS childS R ms s2 val' alpha' beta

/-- Stateful minimizing loop (App.tsx lines 75-86). -/
def goMinS (childS : GState Pos → EInt → EInt → EInt × GState Pos)
    (R : Rules Pos) :
    List MoveExt → GState Pos → EInt → EInt → EInt → EInt × GState Pos
  | [], s, val, _, _ => (val, s)
  | m :: ms, s, val, alpha, beta =>
    let r := childS (s.push R m) alpha beta
    let s2 := r.2.pop
    let val' := min val r.1
    let beta' := min beta val'
    if beta' ≤ alpha then (val', s2) else goMinS childS R ms s2 val' alpha beta'

/-- Stateful `search` (App.tsx lines 59-87) on the live instance. -/
def searchS (R : Rules Pos) : Nat → GState Pos → EInt → EInt → EInt × GState Pos
  | 0, s, _, _ => (.fin (evaluate R s.cur), s)
  | d + 1, s, alpha, beta =>
    if R.isGameOver s.cur then (.fin (evaluate R s.cur), s)
    else
      let mv := R.moves s.cur
      if mv.isEmpty then (.fin (evaluate R s.cur), s)
      else if R.turnW s.cur then
        goMaxS (fun t a b => searchS R d t a b) R mv s .negInf alpha beta
      else
        goMinS (fun t a b => searchS R d t a b) R mv s .posInf alpha beta

/-- Stateful root loop of `minimaxPickMain` (App.tsx lines 89-96). -/
def rootGoS (R : Rules Pos) (d : Nat) (aiWhite : Bool) :
    List MoveExt → GState Pos → Option MoveExt × EInt →
      (Option MoveExt × EInt) × GState Pos
  | [], s, acc => (acc, s)
  | m :: ms, s, (best, bs) =>
    let r := searchS R d (s.push R m) .negInf .posInf
    let s2 := r.2.pop
    if (if aiWhite then bs < r.1 else r.1 < bs) then
      rootGoS R d aiWhite ms s2 (some m, r.1)
    else rootGoS R d aiWhite ms s2 (best, bs)

/-- Stateful `minimaxPickMain` (App.tsx lines 54-98): the selected move
together with the live instance as it is when the function returns. -/
def minimaxPickMainS (R : Rules Pos) (s : GState Pos) (depthLimit : Nat)
    (aiColorW : Bool) : Option MoveObj × GState Pos :=
  let root := R.moves s.cur
  if root.isEmpty then (none, s)
  else
    let r := rootGoS R (depthLimit - 1) aiColorW root s
      (none, if aiColorW then .negInf else .posInf)
    (r.1.1.map toShort, r.2)

/-- Stateful `randomPick` (App.tsx lines 16-20): the function only reads
`game.moves()` and never calls `game.move`/`game.undo`. -/
def randomPickS (R : Rules Pos) (s : GState Pos) (x : ℚ) :
    Option MoveObj × GState Pos :=
  (randomPick R s.cur x, s)

/-- Stateful `greedyPick` (App.tsx lines 22-35): the function only reads
`game.moves({verbose: true})` and never calls `game.move`/`game.undo`. -/
def greedyPickS (R : Rules Pos) (s : GState Pos) (x : ℚ) :
    Option MoveObj × GState Pos :=
  (greedyPick R s.cur x, s)

/-!  The dispatch coordinator of the React component (App.tsx lines
101-200), restricted to the state the cited handlers touch. -/

/-- Foreground state: the authoritative game (`gameRef`), the displayed
FEN (`fen` React state), the request counter (`reqIdRef`), and the two
thinking flags (`thinkingRef`, `isThinking`). -/
structure AppState (Pos : Type) where
  game : Pos
  fen : String
  reqId : Nat
  thinking : Bool
  isThinking : Bool
deriving DecidableEq

/-- Transcribes `w.onmessage` (App.tsx lines 122-131): drop the response if its id
differs from the current request id; otherwise try to apply the move to
the authoritative game (`gameRef.current.move(move)`, which chess.js
rejects by returning `null`), update the FEN when it succeeds, and clear
both thinking flags. -/
def onMessage (R : Rules Pos) (s : AppState Pos) (resp : Nat × Option MoveObj) :
    AppState Pos :=
  if resp.1 ≠ s.reqId then s
  else
    let s1 :=
      match resp.2 with
      | some mv =>
        match R.tryApply s.game mv with
        | some g2 => { s with game := g2, fen := R.fen g2 }
        | none => s
      | none => s
    { s1 with thinking := false, isThinking := false }

/-- Transcribes `doFallback` (App.tsx lines 156-168): pick a move on the snapshot `g`
with the selected strategy, try to apply it to the authoritative game,
update the FEN when it succeeds, clear both thinking flags.  A rejected
application takes the `if (ok)` false branch and nothing else happens. -/
def doFallback (R : Rules Pos) (s : AppState Pos) (g : Pos)
    (mode : AiMode) (depth : Nat) (aiColorW : Bool) (x : ℚ) : AppState Pos :=
  let move := fallbackPick R mode g depth aiColorW x
  let s1 :=
    match move with
    | some mv =>
      match R.tryApply s.game mv with
      | some g2 => { s with game := g2, fen := R.fen g2 }
      | none => s
    | none => s
  { s1 with thinking := false, isThinking := false }

/-- The synchronous part of `requestAiMoveWithFallback` (App.tsx lines
152-174) when a worker exists: snapshot the authoritative position
(`new Chess(gameRef.current.fen())`), increment the request id, and post
`{ id, fen: g.fen(), mode, depth, aiColor }`.  Returns the new state, the
posted request, and the snapshot the armed timeout closure captured. -/
def request (R : Rules Pos) (s : AppState Pos) (mode : AiMode) (depth : Nat)
    (aiPlaysW : Bool) : AppState Pos × workerjs.Req × Pos :=
  let g := R.load (R.fen s.game)
  let id := s.reqId + 1
  ({ s with reqId := id }, ⟨id, R.fen g, mode, depth, aiPlaysW⟩, g)

/-- The armed timeout callback (App.tsx lines 177-180): if the thinking
flag was already cleared do nothing, otherwise run `doFallback`. -/
def timeoutFire (R : Rules Pos) (s : AppState Pos) (g : Pos)
    (mode : AiMode) (depth : Nat) (aiColorW : Bool) (x : ℚ) : AppState Pos :=
  if s.thinking = false then s else doFallback R s g mode depth aiColorW x

end mainjs

namespace ab

open mainjs

variable {Pos : Type}

/-- Clamp `x` into the window `[alpha, beta]`. -/
def clamp (alpha beta x : EInt) : EInt := max alpha (min beta x)

end ab

namespace greedy

open mainjs

variable {Pos : Type}

/-- Running maximum of the one-ply scores, seeded with `a`. -/
def scoreMax (ms : List MoveExt) (a : Int) : Int :=
  ms.foldl (fun acc m => max acc (moveScore m)) a

end greedy

namespace claims

open mainjs

/-- Toy rules engine for the C1 witness: a depth-2 game tree with two
root moves for White, one reply each for Black, and distinct leaf
mobilities so the two subtrees score differently. -/
def c1Move (s : String) : MoveExt := ⟨s, s, none, .p, none, s⟩

def c1Rules : Rules Nat where
  moves p :=
    if p = 0 then [c1Move "a3", c1Move "b3"]
    else if p = 1 then [c1Move "c6"]
    else if p = 2 then [c1Move "d6"]
    else if p = 4 then [c1Move "e4"]
    else []
  apply p m :=
    if p = 0 then (if m = c1Move "a3" then 1 else 2)
    else if p = 1 then 3
    else if p = 2 then 4
    else 5
  tryApply _ _ := none
  board _ := []
  turnW p := p == 0 || Nat.ble 3 p
  inCheck _ := false
  isCheckmate _ := false
  isStalemate _ := false
  isDraw _ := false
  isInsufficientMaterial _ := false
  isThreefoldRepetition _ := false
  isGameOver _ := false
  fen _ := ""
  load _ := 0

def c7Move (s : String) : MoveExt := ⟨s, s, none, .p, none, s⟩

/-- Toy rules engine for the C7 witness: one white pawn and one black
queen on the board, two legal moves, White to move and in check. -/
def c7Rules : Rules Unit where
  moves _ := [c7Move "a3", c7Move "a4"]
  apply _ _ := ()
  tryApply _ _ := none
  board _ := [[some ⟨.p, true⟩, none], [some ⟨.q, false⟩]]
  turnW _ := true
  inCheck _ := true
  isCheckmate _ := false
  isStalemate _ := false
  isDraw _ := false
  isInsufficientMaterial _ := false
  isThreefoldRepetition _ := false
  isGameOver _ := false
  fen _ := ""
  load _ := ()

/-- C2 counterexample input: a rules-engine state answering both
`isCheckmate` and `isDraw` (and `isThreefoldRepetition`).  chess.js
reports `isDraw() = true` whenever the half-move clock has reached 100
regardless of mate — e.g. the FEN "7k/5KQ1/8/8/8/8/8/8 b - - 100 80" is
checkmate with a full fifty-move counter. -/
def c2Rules : Rules Unit where
  moves _ := []
  apply _ _ := ()
  tryApply _ _ := none
  board _ := []
  turnW _ := false
  inCheck _ := true
  isCheckmate _ := true
  isStalemate _ := false
  isDraw _ := true
  isInsufficientMaterial _ := false
  isThreefoldRepetition _ := true
  isGameOver _ := true
  fen _ := ""
  load _ := ()

/-- C2 draw-side witness input: a drawn, non-mate position with nonzero
material, mobility and check terms, all overridden to `0`. -/
def c2DrawRules : Rules Unit where
  moves _ := [⟨"a2", "a3", none, .p, none, "a3"⟩]
  apply _ _ := ()
  tryApply _ _ := none
  board _ := [[some ⟨.q, true⟩]]
  turnW _ := true
  inCheck _ := true
  isCheckmate _ := false
  isStalemate _ := true
  isDraw _ := true
  isInsufficientMaterial _ := false
  isThreefoldRepetition _ := false
  isGameOver _ := true
  fen _ := ""
  load _ := ()

/-- C5 counterexample input: a game-over Position that still has a legal
move.  chess.js reports `isGameOver() = true` for a draw by threefold
repetition or by the fifty-move rule while `moves()` still enumerates
legal moves. -/
def c5Rules : Rules Unit where
  moves _ := [⟨"a2", "a3", none, .p, none, "a3"⟩]
  apply _ _ := ()
  tryApply _ _ := none
  board _ := []
  turnW _ := true
  inCheck _ := false
  isCheckmate _ := false
  isStalemate _ := false
  isDraw _ := true
  isInsufficientMaterial _ := false
  isThreefoldRepetition _ := true
  isGameOver _ := true
  fen _ := ""
  load _ := ()

/-- C5 witness input: position `0` has no legal moves, position `1` has
exactly one. -/
def c5wRules : Rules Nat where
  moves p := if p = 1 then [⟨"a2", "a3", none, .p, none, "a3"⟩] else []
  apply _ _ := 0
  tryApply _ _ := none
  board _ := []
  turnW _ := true
  inCheck _ := false
  isCheckmate _ := false
  isStalemate _ := false
  isDraw _ := false
  isInsufficientMaterial _ := false
  isThreefoldRepetition _ := false
  isGameOver _ := false
  fen _ := ""
  load _ := 0

/-- C8 counterexample input: the only capture of value ≥ 300 is queen
takes knight (one-ply score 320 − 900 + 1 = −579), and a quiet pawn move
(score 0) is also legal; no SAN carries a check or mate mark. -/
def c8CapMove : MoveExt := ⟨"d1", "d4", none, .q, some .n, "Qxd4"⟩

def c8QuietMove : MoveExt := ⟨"a2", "a3", none, .p, none, "a3"⟩

def c8Rules : Rules Unit where
  moves _ := [c8CapMove, c8QuietMove]
  apply _ _ := ()
  tryApply _ _ := none
  board _ := []
  turnW _ := true
  inCheck _ := false
  isCheckmate _ := false
  isStalemate _ := false
  isDraw _ := false
  isInsufficientMaterial _ := false
  isThreefoldRepetition _ := false
  isGameOver _ := false
  fen _ := ""
  load _ := ()

/-- C8 witness input: a pawn captures an undefended queen, one quiet move
is also available; the capture (score 900 − 100 + 1 = 801) wins. -/
def c8wCapMove : MoveExt := ⟨"e4", "d5", none, .p, some .q, "exd5"⟩

def c8wQuietMove : MoveExt := ⟨"h2", "h3", none, .p, none, "h3"⟩

def c8wRules : Rules Unit where
  moves _ := [c8wQuietMove, c8wCapMove]
  apply _ _ := ()
  tryApply _ _ := none
  board _ := []
  turnW _ := true
  inCheck _ := false
  isCheckmate _ := false
  isStalemate _ := false
  isDraw _ := false
  isInsufficientMaterial _ := false
  isThreefoldRepetition _ := false
  isGameOver _ := false
  fen _ := ""
  load _ := ()

/-- C10 counterexample input: the rules engine rejects every move
application (`tryApply` is always `none`), while the greedy strategy on
the snapshot still proposes a move. -/
def c10Move : MoveExt := ⟨"a2", "a3", none, .p, none, "a3"⟩

def c10Rules : Rules Unit where
  moves _ := [c10Move]
  apply _ _ := ()
  tryApply _ _ := none
  board _ := []
  turnW _ := true
  inCheck _ := false
  isCheckmate _ := false
  isStalemate _ := false
  isDraw _ := false
  isInsufficientMaterial _ := false
  isThreefoldRepetition _ := false
  isGameOver _ := false
  fen _ := "f0"
  load _ := ()

def c10State : AppState Unit := ⟨(), "f0", 1, true, true⟩

/-- C4 trace input: a toy rules engine in which the duplicate application
of the AI's move to the already-updated game is accepted, so the effect
of the missing invalidation is visible in the final state. -/
def c4Move : MoveExt := ⟨"a2", "a3", none, .p, none, "a3"⟩

def c4Rules : Rules Nat where
  moves p := if p = 0 then [c4Move] else []
  apply _ _ := 0
  tryApply p mv :=
    if mv = ⟨"a2", "a3", none⟩ then
      (if p = 0 then some 1 else if p = 1 then some 2 else none)
    else none
  board _ := []
  turnW _ := true
  inCheck _ := false
  isCheckmate _ := false
  isStalemate _ := false
  isDraw _ := false
  isInsufficientMaterial _ := false
  isThreefoldRepetition _ := false
  isGameOver _ := false
  fen p := if p = 0 then "p0" else "px"
  load f := if f = "p0" then 0 else 3

/-- The foreground state after `maybeAIMove` set the thinking flags and
before `requestAiMoveWithFallback` ran. -/
def c4S1 : AppState Nat := ⟨0, "p0", 0, true, true⟩

def c4S2 : AppState Nat := (request c4Rules c4S1 .greedy 3 true).1

def c4Req : workerjs.Req := (request c4Rules c4S1 .greedy 3 true).2.1

def c4Snap : Nat := (request c4Rules c4S1 .greedy 3 true).2.2

def c4AfterFallback : AppState Nat :=
  timeoutFire c4Rules c4S2 c4Snap .greedy 3 true 0

def c4Resp : Nat × Option MoveObj := workerjs.handle c4Rules c4Req 0

end claims

/-!  Theorem development. -/

namespace EInt

theorem negInf_le (a : EInt) : negInf ≤ a := by cases a <;> simp [le_def, leB]

theorem le_posInf (a : EInt) : a ≤ posInf := by cases a <;> simp [le_def, leB]

theorem fin_le_fin {a b : Int} : (fin a ≤ fin b) ↔ a ≤ b := by
  simp [le_def, leB]

theorem fin_lt_fin {a b : Int} : (fin a < fin b) ↔ a < b := by
  constructor
  · intro h
    have := h.not_le
    simpa [fin_le_fin] using this
  · intro h
    exact lt_of_le_of_ne (fin_le_fin.mpr h.le) (by simp [h.ne])

theorem negInf_lt_fin (a : Int) : negInf < fin a :=
  lt_of_le_of_ne (negInf_le _) (by simp)

theorem fin_lt_posInf (a : Int) : fin a < posInf :=
  lt_of_le_of_ne (le_posInf _) (by simp)

theorem negInf_lt_posInf : (negInf : EInt) < posInf :=
  lt_of_le_of_ne (negInf_le _) (by simp)

theorem isFin_fin (n : Int) : isFin (fin n) := ⟨n, rfl⟩

theorem isFin_max {a b : EInt} (ha : isFin a ∨ a = negInf) (hb : isFin b) :
    isFin (max a b) := by
  rcases le_total a b with h | h
  · rw [max_eq_right h]; exact hb
  · rw [max_eq_left h]
    rcases ha with ha | ha
    · exact ha
    · subst ha
      obtain ⟨n, hn⟩ := hb
      subst hn
      have := le_antisymm h (negInf_le _)
      exact ⟨n, this.symm ▸ rfl⟩

theorem isFin_min {a b : EInt} (ha : isFin a ∨ a = posInf) (hb : isFin b) :
    isFin (min a b) := by
  rcases le_total b a with h | h
  · rw [min_eq_right h]; exact hb
  · rw [min_eq_left h]
    rcases ha with ha | ha
    · exact ha
    · subst ha
      obtain ⟨n, hn⟩ := hb
      subst hn
      have := le_antisymm h (le_posInf _)
      exact ⟨n, this ▸ rfl⟩

theorem ne_negInf_of_isFin {a : EInt} (h : isFin a) : a ≠ negInf := by
  obtain ⟨n, rfl⟩ := h; simp

theorem ne_posInf_of_isFin {a : EInt} (h : isFin a) : a ≠ posInf := by
  obtain ⟨n, rfl⟩ := h; simp

theorem negInf_lt_of_isFin {a : EInt} (h : isFin a) : negInf < a := by
  obtain ⟨n, rfl⟩ := h; exact negInf_lt_fin n

theorem lt_posInf_of_isFin {a : EInt} (h : isFin a) : a < posInf := by
  obtain ⟨n, rfl⟩ := h; exact fin_lt_posInf n

end EInt

theorem GState.pop_push {Pos : Type} (R : Rules Pos) (s : GState Pos)
    (m : MoveExt) : (s.push R m).pop = s := rfl

theorem GState.push_cur {Pos : Type} (R : Rules Pos) (s : GState Pos)
    (m : MoveExt) : (s.push R m).cur = R.apply s.cur m := rfl

namespace mainjs

variable {Pos : Type}

/-!  Bridge: the mutating search equals the value-level search and leaves
the live instance exactly as it found it (every `game.move` is undone by
the matching `game.undo` in LIFO order). -/

theorem goMaxS_spec (R : Rules Pos)
    (childS : GState Pos → EInt → EInt → EInt × GState Pos)
    (child : Pos → EInt → EInt → EInt)
    (h : ∀ t a b, childS t a b = (child t.cur a b, t)) :
    ∀ (ms : List MoveExt) (s : GState Pos) (val alpha beta : EInt),
      goMaxS childS R ms s val alpha beta =
        (goMax (fun m a b => child (R.apply s.cur m) a b) ms val alpha beta, s) := by
  intro ms
  induction ms with
  | nil => intro s val alpha beta; rfl
  | cons m ms ih =>
    intro s val alpha beta
    simp only [goMaxS, goMax, h, GState.pop_push, GState.push_cur]
    split
    · rfl
    · exact ih s _ _ _

theorem goMinS_spec (R : Rules Pos)
    (childS : GState Pos → EInt → EInt → EInt × GState Pos)
    (child : Pos → EInt → EInt → EInt)
    (h : ∀ t a b, childS t a b = (child t.cur a b, t)) :
    ∀ (ms : List MoveExt) (s : GState Pos) (val alpha beta : EInt),
      goMinS childS R ms s val alpha beta =
        (goMin (fun m a b => child (R.apply s.cur m) a b) ms val alpha beta, s) := by
  intro ms
  induction ms with
  | nil => intro s val alpha beta; rfl
  | cons m ms ih =>
    intro s val alpha beta
    simp only [goMinS, goMin, h, GState.pop_push, GState.push_cur]
    split
    · rfl
    · exact ih s _ _ _

theorem searchS_spec (R : Rules Pos) (d : Nat) :
    ∀ (s : GState Pos) (a b : EInt),
      searchS R d s a b = (search R d s.cur a b, s) := by
  induction d with
  | zero => intro s a b; rfl
  | succ d ih =>
    intro s a b
    simp only [searchS, search]
    split
    · rfl
    · split
      · rfl
      · split
        · exact goMaxS_spec R _ (search R d) (fun t a b => ih t a b) _ s _ _ _
        · exact goMinS_spec R _ (search R d) (fun t a b => ih t a b) _ s _ _ _

theorem rootGoS_spec (R : Rules Pos) (d : Nat) (aiW : Bool) :
    ∀ (ms : List MoveExt) (s : GState Pos) (acc : Option MoveExt × EInt),
      rootGoS R d aiW ms s acc =
        (rootGo (fun m => search R d (R.apply s.cur m) .negInf .posInf) aiW ms acc,
          s) := by
  intro ms
  induction ms with
  | nil => intro s acc; rfl
  | cons m ms ih =>
    intro s acc
    obtain ⟨best, bs⟩ := acc
    simp only [rootGoS, rootGo, searchS_spec, GState.pop_push, GState.push_cur]
    split <;> split <;> exact ih s _

theorem minimaxPickMainS_spec (R : Rules Pos) (s : GState Pos)
    (depthLimit : Nat) (aiColorW : Bool) :
    minimaxPickMainS R s depthLimit aiColorW =
      (minimaxPickMain R s.cur depthLimit aiColorW, s) := by
  simp only [minimaxPickMainS, minimaxPickMain, minimaxRoot, rootGoS_spec]
  split
  · rfl
  · rfl

/-- Congruence of the root loop in the child-score function. -/
theorem rootGo_congr {f f' : MoveExt → EInt} (aiW : Bool)
    (h : ∀ m, f m = f' m) :
    ∀ (ms : List MoveExt) (acc : Option MoveExt × EInt),
      rootGo f aiW ms acc = rootGo f' aiW ms acc := by
  intro ms
  induction ms with
  | nil => intro acc; rfl
  | cons m ms ih =>
    intro acc
    obtain ⟨best, bs⟩ := acc
    simp only [rootGo, h]
    split <;> split <;> exact ih _

end mainjs

namespace equiv

variable {Pos : Type}

theorem VAL_eq : workerjs.VAL = mainjs.VAL := by
  funext pk
  cases pk <;> rfl

theorem toShort_eq : workerjs.toShort = mainjs.toShort := rfl

theorem moveScore_eq (m : MoveExt) : workerjs.moveScore m = mainjs.moveScore m := by
  simp only [workerjs.moveScore, mainjs.moveScore, VAL_eq]

theorem greedyGo_eq :
    ∀ (ms : List MoveExt) (best : Option MoveExt) (bs : Int),
      workerjs.greedyGo ms best bs = mainjs.greedyGo ms best bs := by
  intro ms
  induction ms with
  | nil => intro best bs; rfl
  | cons m ms ih =>
    intro best bs
    simp only [workerjs.greedyGo, mainjs.greedyGo, moveScore_eq]
    split <;> exact ih _ _

theorem randomPicker_eq (R : Rules Pos) (g : Pos) (x : ℚ) :
    workerjs.randomPicker R g x = mainjs.randomPick R g x := rfl

theorem greedyPicker_eq (R : Rules Pos) (g : Pos) (x : ℚ) :
    workerjs.greedyPicker R g x = mainjs.greedyPick R g x := by
  simp only [workerjs.greedyPicker, mainjs.greedyPick, greedyGo_eq, toShort_eq]

theorem evaluate_eq (R : Rules Pos) (g : Pos) :
    workerjs.evaluate R g = mainjs.evaluate R g := by
  simp only [workerjs.evaluate, mainjs.evaluate, VAL_eq]

theorem goMax_eq {f f' : MoveExt → EInt → EInt → EInt}
    (h : ∀ m a b, f m a b = f' m a b) :
    ∀ (ms : List MoveExt) (val alpha beta : EInt),
      workerjs.goMax f ms val alpha beta = mainjs.goMax f' ms val alpha beta := by
  intro ms
  induction ms with
  | nil => intro val alpha beta; rfl
  | cons m ms ih =>
    intro val alpha beta
    simp only [workerjs.goMax, mainjs.goMax, h]
    split
    · rfl
    · exact ih _ _ _

theorem goMin_eq {f f' : MoveExt → EInt → EInt → EInt}
    (h : ∀ m a b, f m a b = f' m a b) :
    ∀ (ms : List MoveExt) (val alpha beta : EInt),
      workerjs.goMin f ms val alpha beta = mainjs.goMin f' ms val alpha beta := by
  intro ms
  induction ms with
  | nil => intro val alpha beta; rfl
  | cons m ms ih =>
    intro val alpha beta
    simp only [workerjs.goMin, mainjs.goMin, h]
    split
    · rfl
    · exact ih _ _ _

theorem search_eq (R : Rules Pos) (d : Nat) :
    ∀ (g : Pos) (a b : EInt),
      workerjs.search R d g a b = mainjs.search R d g a b := by
  induction d with
  | zero => intro g a b; simp only [workerjs.search, mainjs.search, evaluate_eq]
  | succ d ih =>
    intro g a b
    simp only [workerjs.search, mainjs.search, evaluate_eq]
    split
    · rfl
    · split
      · rfl
      · split
        · exact goMax_eq (fun m a b => ih (R.apply g m) a b) _ _ _ _
        · exact goMin_eq (fun m a b => ih (R.apply g m) a b) _ _ _ _

theorem rootGo_eq {f f' : MoveExt → EInt} (aiW : Bool) (h : ∀ m, f m = f' m) :
    ∀ (ms : List MoveExt) (acc : Option MoveExt × EInt),
      workerjs.rootGo f aiW ms acc = mainjs.rootGo f' aiW ms acc := by
  intro ms
  induction ms with
  | nil => intro acc; rfl
  | cons m ms ih =>
    intro acc
    obtain ⟨best, bs⟩ := acc
    simp only [workerjs.rootGo, mainjs.rootGo, h]
    split <;> split <;> exact ih _

theorem minimaxRoot_eq (R : Rules Pos) (g : Pos) (d : Nat) (c : Bool) :
    workerjs.minimaxRoot R g d c = mainjs.minimaxRoot R g d c := by
  simp only [workerjs.minimaxRoot, mainjs.minimaxRoot]
  split
  · rfl
  · exact rootGo_eq c (fun m => search_eq R (d - 1) (R.apply g m) _ _) _ _

theorem minimaxPick_eq (R : Rules Pos) (g : Pos) (d : Nat) (c : Bool) :
    workerjs.minimaxPick R g d c = mainjs.minimaxPickMain R g d c := by
  simp only [workerjs.minimaxPick, mainjs.minimaxPickMain, minimaxRoot_eq,
    toShort_eq]

theorem handle_eq (R : Rules Pos) (req : workerjs.Req) (x : ℚ) :
    (workerjs.handle R req x).2 =
      mainjs.fallbackPick R req.mode (R.load req.fen) req.depth req.aiColorW x := by
  cases req with
  | mk id fen mode depth aiColorW =>
    cases mode <;>
      simp only [workerjs.handle, mainjs.fallbackPick, randomPicker_eq,
        greedyPicker_eq, minimaxPick_eq]

end equiv

namespace ab

open mainjs

variable {Pos : Type}

theorem clamp_low {alpha beta x : EInt} (h : x ≤ alpha) :
    clamp alpha beta x = alpha :=
  max_eq_left ((min_le_right beta x).trans h)

theorem clamp_high {alpha beta x : EInt} (hab : alpha ≤ beta) (h : beta ≤ x) :
    clamp alpha beta x = beta := by
  rw [clamp, min_eq_left h, max_eq_right hab]

theorem clamp_mid {alpha beta x : EInt} (h1 : alpha < x) (h2 : x < beta) :
    clamp alpha beta x = x := by
  rw [clamp, min_eq_right h2.le, max_eq_right h1.le]

theorem le_of_clamp_eq_low {alpha beta g : EInt} (hab : alpha < beta)
    (h : clamp alpha beta g = alpha) : g ≤ alpha := by
  by_contra hg
  push_neg at hg
  rcases lt_or_le g beta with h2 | h2
  · rw [clamp_mid hg h2] at h
    exact absurd h.symm hg.ne
  · rw [clamp_high hab.le h2] at h
    exact absurd h hab.ne'

theorem le_of_clamp_eq_high {alpha beta g : EInt} (hab : alpha < beta)
    (h : clamp alpha beta g = beta) : beta ≤ g := by
  by_contra hg
  push_neg at hg
  rcases le_or_lt g alpha with h2 | h2
  · rw [clamp_low h2] at h
    exact absurd h hab.ne
  · rw [clamp_mid h2 hg] at h
    exact absurd h hg.ne

theorem eq_of_clamp_eq_mid {alpha beta g c : EInt} (h1 : alpha < c)
    (h2 : c < beta) (h : clamp alpha beta g = c) : g = c := by
  rcases le_or_lt g alpha with ha | ha
  · rw [clamp_low ha] at h
    exact absurd h h1.ne
  · rcases lt_or_le g beta with hb | hb
    · rwa [clamp_mid ha hb] at h
    · rw [clamp_high (h1.trans h2).le hb] at h
      exact absurd h h2.ne'

theorem clamp_agree_max {alpha beta c x : EInt} (h1 : alpha < c) (h2 : c < beta)
    (hx : c ≤ x) : clamp alpha beta x = clamp c beta x := by
  have hmin : c ≤ min beta x := le_min h2.le hx
  rw [clamp, clamp, max_eq_right (h1.le.trans hmin), max_eq_right hmin]

theorem clamp_agree_min {alpha beta c x : EInt} (_h1 : alpha < c) (h2 : c < beta)
    (hx : x ≤ c) : clamp alpha beta x = clamp alpha c x := by
  have hmin : min beta x = x := min_eq_right (hx.trans h2.le)
  have hmin2 : min c x = x := min_eq_right hx
  rw [clamp, clamp, hmin, hmin2]

theorem goMax_ge (f : MoveExt → EInt → EInt → EInt) :
    ∀ (ms : List MoveExt) (val alpha beta : EInt),
      val ≤ goMax f ms val alpha beta := by
  intro ms
  induction ms with
  | nil => intro val alpha beta; exact le_rfl
  | cons m ms ih =>
    intro val alpha beta
    simp only [goMax]
    split
    · exact le_max_left _ _
    · exact (le_max_left val (f m alpha beta)).trans (ih _ _ _)

theorem goMin_le (f : MoveExt → EInt → EInt → EInt) :
    ∀ (ms : List MoveExt) (val alpha beta : EInt),
      goMin f ms val alpha beta ≤ val := by
  intro ms
  induction ms with
  | nil => intro val alpha beta; exact le_rfl
  | cons m ms ih =>
    intro val alpha beta
    simp only [goMin]
    split
    · exact min_le_left _ _
    · exact (ih _ _ _).trans (min_le_left val (f m alpha beta))

theorem foldl_max_ge (g : MoveExt → EInt) :
    ∀ (ms : List MoveExt) (val : EInt),
      val ≤ ms.foldl (fun v m => max v (g m)) val := by
  intro ms
  induction ms with
  | nil => intro val; exact le_rfl
  | cons m ms ih =>
    intro val
    exact (le_max_left val (g m)).trans (ih _)

theorem foldl_min_le (g : MoveExt → EInt) :
    ∀ (ms : List MoveExt) (val : EInt),
      ms.foldl (fun v m => min v (g m)) val ≤ val := by
  intro ms
  induction ms with
  | nil => intro val; exact le_rfl
  | cons m ms ih =>
    intro val
    exact (ih _).trans (min_le_left val (g m))

theorem foldl_max_clamp_congr (g : MoveExt → EInt) :
    ∀ (ms : List MoveExt) (a b alpha beta : EInt), a ≤ alpha → b ≤ alpha →
      clamp alpha beta (ms.foldl (fun v m => max v (g m)) a) =
      clamp alpha beta (ms.foldl (fun v m => max v (g m)) b) := by
  intro ms
  induction ms with
  | nil =>
    intro a b alpha beta ha hb
    rw [List.foldl_nil, List.foldl_nil, clamp_low ha, clamp_low hb]
  | cons m ms ih =>
    intro a b alpha beta ha hb
    simp only [List.foldl_cons]
    rcases le_or_lt (g m) alpha with h | h
    · exact ih _ _ _ _ (max_le ha h) (max_le hb h)
    · rw [max_eq_right (ha.trans h.le), max_eq_right (hb.trans h.le)]

theorem foldl_min_clamp_congr (g : MoveExt → EInt) :
    ∀ (ms : List MoveExt) (a b alpha beta : EInt), alpha ≤ beta →
      beta ≤ a → beta ≤ b →
      clamp alpha beta (ms.foldl (fun v m => min v (g m)) a) =
      clamp alpha beta (ms.foldl (fun v m => min v (g m)) b) := by
  intro ms
  induction ms with
  | nil =>
    intro a b alpha beta hab ha hb
    rw [List.foldl_nil, List.foldl_nil, clamp_high hab ha, clamp_high hab hb]
  | cons m ms ih =>
    intro a b alpha beta hab ha hb
    simp only [List.foldl_cons]
    rcases le_or_lt beta (g m) with h | h
    · exact ih _ _ _ _ hab (le_min ha h) (le_min hb h)
    · rw [min_eq_right (h.le.trans ha), min_eq_right (h.le.trans hb)]

/-- Fail-soft correctness of the maximizing loop: inside the window, the
pruned accumulation agrees with the unpruned fold. -/
theorem goMax_clamp (g : MoveExt → EInt) (f : MoveExt → EInt → EInt → EInt)
    (hfg : ∀ m a b, a < b → clamp a b (f m a b) = clamp a b (g m)) :
    ∀ (ms : List MoveExt) (val alpha beta : EInt), val ≤ alpha → alpha < beta →
      clamp alpha beta (goMax f ms val alpha beta) =
      clamp alpha beta (ms.foldl (fun v m => max v (g m)) val) := by
  intro ms
  induction ms with
  | nil => intro val alpha beta _ _; rfl
  | cons m ms ih =>
    intro val alpha beta hva hab
    have hc := hfg m alpha beta hab
    have halpha : max alpha (max val (f m alpha beta)) = max alpha (f m alpha beta) := by
      rw [← max_assoc, max_eq_left hva]
    simp only [goMax, List.foldl_cons, halpha]
    by_cases hbr : beta ≤ max alpha (f m alpha beta)
    · rw [if_pos hbr]
      have hca : alpha < f m alpha beta := by
        by_contra hle
        push_neg at hle
        rw [max_eq_left hle] at hbr
        exact absurd hbr hab.not_le
      have hbc : beta ≤ f m alpha beta := by
        rwa [max_eq_right hca.le] at hbr
      have hval : max val (f m alpha beta) = f m alpha beta :=
        max_eq_right (hva.trans hca.le)
      rw [hval, clamp_high hab.le hbc]
      have hg : beta ≤ g m :=
        le_of_clamp_eq_high hab (by rw [← hc, clamp_high hab.le hbc])
      have hfold : beta ≤ ms.foldl (fun v m2 => max v (g m2)) (max val (g m)) :=
        (hg.trans (le_max_right val (g m))).trans (foldl_max_ge g ms _)
      rw [clamp_high hab.le hfold]
    · rw [if_neg hbr]
      have hbr' : max alpha (f m alpha beta) < beta := not_le.mp hbr
      rcases le_or_lt (f m alpha beta) alpha with hca | hca
      · have hval : max val (f m alpha beta) ≤ alpha := max_le hva hca
        have halpha2 : max alpha (f m alpha beta) = alpha := max_eq_left hca
        rw [halpha2]
        have hg : g m ≤ alpha :=
          le_of_clamp_eq_low hab (by rw [← hc, clamp_low hca])
        calc clamp alpha beta (goMax f ms (max val (f m alpha beta)) alpha beta)
            = clamp alpha beta
                (ms.foldl (fun v m2 => max v (g m2)) (max val (f m alpha beta))) :=
              ih _ _ _ hval hab
          _ = clamp alpha beta
                (ms.foldl (fun v m2 => max v (g m2)) (max val (g m))) :=
              foldl_max_clamp_congr g ms _ _ _ _ hval (max_le hva hg)
      · have halpha2 : max alpha (f m alpha beta) = f m alpha beta :=
          max_eq_right hca.le
        rw [halpha2] at hbr' ⊢
        have hgm : g m = f m alpha beta :=
          eq_of_clamp_eq_mid hca hbr' (by rw [← hc, clamp_mid hca hbr'])
        have hval : max val (f m alpha beta) ≤ f m alpha beta :=
          max_le (hva.trans hca.le) le_rfl
        have h1 : clamp (f m alpha beta) beta
            (goMax f ms (max val (f m alpha beta)) (f m alpha beta) beta) =
            clamp (f m alpha beta) beta
              (ms.foldl (fun v m2 => max v (g m2)) (max val (f m alpha beta))) :=
          ih _ _ _ hval hbr'
        have h2 : clamp alpha beta
            (goMax f ms (max val (f m alpha beta)) (f m alpha beta) beta) =
            clamp (f m alpha beta) beta
              (goMax f ms (max val (f m alpha beta)) (f m alpha beta) beta) :=
          clamp_agree_max hca hbr'
            ((le_max_right val _).trans (goMax_ge f ms _ _ _))
        have h3 : clamp alpha beta
            (ms.foldl (fun v m2 => max v (g m2)) (max val (g m))) =
            clamp (f m alpha beta) beta
              (ms.foldl (fun v m2 => max v (g m2)) (max val (g m))) := by
          rw [hgm]
          exact clamp_agree_max hca hbr'
            ((le_max_right val _).trans (foldl_max_ge g ms _))
        rw [h2, h1, h3, hgm]

/-- Fail-soft correctness of the minimizing loop. -/
theorem goMin_clamp (g : MoveExt → EInt) (f : MoveExt → EInt → EInt → EInt)
    (hfg : ∀ m a b, a < b → clamp a b (f m a b) = clamp a b (g m)) :
    ∀ (ms : List MoveExt) (val alpha beta : EInt), beta ≤ val → alpha < beta →
      clamp alpha beta (goMin f ms val alpha beta) =
      clamp alpha beta (ms.foldl (fun v m => min v (g m)) val) := by
  intro ms
  induction ms with
  | nil => intro val alpha beta _ _; rfl
  | cons m ms ih =>
    intro val alpha beta hvb hab
    have hc := hfg m alpha beta hab
    have hbeta : min beta (min val (f m alpha beta)) = min beta (f m alpha beta) := by
      rw [← min_assoc, min_eq_left hvb]
    simp only [goMin, List.foldl_cons, hbeta]
    by_cases hbr : min beta (f m alpha beta) ≤ alpha
    · rw [if_pos hbr]
      have hca : f m alpha beta < beta := by
        by_contra hle
        push_neg at hle
        rw [min_eq_left hle] at hbr
        exact absurd hbr hab.not_le
      have hbc : f m alpha beta ≤ alpha := by
        rwa [min_eq_right hca.le] at hbr
      have hval : min val (f m alpha beta) = f m alpha beta :=
        min_eq_right ((hbc.trans hab.le).trans hvb)
      rw [hval, clamp_low hbc]
      have hg : g m ≤ alpha :=
        le_of_clamp_eq_low hab (by rw [← hc, clamp_low hbc])
      have hfold : ms.foldl (fun v m2 => min v (g m2)) (min val (g m)) ≤ alpha :=
        (foldl_min_le g ms _).trans ((min_le_right val (g m)).trans hg)
      rw [clamp_low hfold]
    · rw [if_neg hbr]
      have hbr' : alpha < min beta (f m alpha beta) := not_le.mp hbr
      rcases le_or_lt beta (f m alpha beta) with hca | hca
      · have hval : beta ≤ min val (f m alpha beta) := le_min hvb hca
        have hbeta2 : min beta (f m alpha beta) = beta := min_eq_left hca
        rw [hbeta2]
        have hg : beta ≤ g m :=
          le_of_clamp_eq_high hab (by rw [← hc, clamp_high hab.le hca])
        calc clamp alpha beta (goMin f ms (min val (f m alpha beta)) alpha beta)
            = clamp alpha beta
                (ms.foldl (fun v m2 => min v (g m2)) (min val (f m alpha beta))) :=
              ih _ _ _ hval hab
          _ = clamp alpha beta
                (ms.foldl (fun v m2 => min v (g m2)) (min val (g m))) :=
              foldl_min_clamp_congr g ms _ _ _ _ hab.le hval (le_min hvb hg)
      · have hbeta2 : min beta (f m alpha beta) = f m alpha beta :=
          min_eq_right hca.le
        rw [hbeta2] at hbr' ⊢
        have hgm : g m = f m alpha beta :=
          eq_of_clamp_eq_mid hbr' hca (by rw [← hc, clamp_mid hbr' hca])
        have hval : f m alpha beta ≤ min val (f m alpha beta) :=
          le_min (hca.le.trans hvb) le_rfl
        have h1 : clamp alpha (f m alpha beta)
            (goMin f ms (min val (f m alpha beta)) alpha (f m alpha beta)) =
            clamp alpha (f m alpha beta)
              (ms.foldl (fun v m2 => min v (g m2)) (min val (f m alpha beta))) :=
          ih _ _ _ hval hbr'
        have h2 : clamp alpha beta
            (goMin f ms (min val (f m alpha beta)) alpha (f m alpha beta)) =
            clamp alpha (f m alpha beta)
              (goMin f ms (min val (f m alpha beta)) alpha (f m alpha beta)) :=
          clamp_agree_min hbr' hca
            ((goMin_le f ms _ _ _).trans (min_le_right val _))
        have h3 : clamp alpha beta
            (ms.foldl (fun v m2 => min v (g m2)) (min val (g m))) =
            clamp alpha (f m alpha beta)
              (ms.foldl (fun v m2 => min v (g m2)) (min val (g m))) := by
          rw [hgm]
          exact clamp_agree_min hbr' hca
            ((foldl_min_le g ms _).trans (min_le_right val _))
        rw [h2, h1, h3, hgm]

/-- Knuth-Moore style window correctness of `search`: inside any window
the pruned search agrees with the unpruned minimax. -/
theorem search_clamp (R : Rules Pos) (d : Nat) :
    ∀ (g : Pos) (alpha beta : EInt), alpha < beta →
      clamp alpha beta (search R d g alpha beta) =
      clamp alpha beta (spec.minimax R d g) := by
  induction d with
  | zero => intro g alpha beta _; rfl
  | succ d ih =>
    intro g alpha beta hab
    simp only [search, spec.minimax]
    split
    · rfl
    · split
      · rfl
      · split
        · exact goMax_clamp (fun m => spec.minimax R d (R.apply g m))
            (fun m a b => search R d (R.apply g m) a b)
            (fun m a b h => ih (R.apply g m) a b h) _ _ _ _
            (EInt.negInf_le alpha) hab
        · exact goMin_clamp (fun m => spec.minimax R d (R.apply g m))
            (fun m a b => search R d (R.apply g m) a b)
            (fun m a b h => ih (R.apply g m) a b h) _ _ _ _
            (EInt.le_posInf beta) hab

theorem clamp_full (x : EInt) : clamp .negInf .posInf x = x := by
  rw [clamp, min_eq_right (EInt.le_posInf x), max_eq_right (EInt.negInf_le x)]

/-- At the full window — the window `search` receives for every root
move — pruning is invisible: `search` equals the unpruned minimax. -/
theorem search_eq_minimax (R : Rules Pos) (d : Nat) (g : Pos) :
    search R d g .negInf .posInf = spec.minimax R d g := by
  have h := search_clamp R d g .negInf .posInf EInt.negInf_lt_posInf
  rwa [clamp_full, clamp_full] at h

end ab

namespace greedy

open mainjs

variable {Pos : Type}

theorem scoreMax_nil (a : Int) : scoreMax [] a = a := rfl

theorem scoreMax_cons (m : MoveExt) (ms : List MoveExt) (a : Int) :
    scoreMax (m :: ms) a = scoreMax ms (max a (moveScore m)) := rfl

theorem scoreMax_ge : ∀ (ms : List MoveExt) (a : Int), a ≤ scoreMax ms a := by
  intro ms
  induction ms with
  | nil => intro a; exact le_rfl
  | cons m ms ih =>
    intro a
    exact (le_max_left a (moveScore m)).trans (ih _)

theorem scoreMax_le : ∀ (ms : List MoveExt) (a v : Int), a ≤ v →
    (∀ m ∈ ms, moveScore m ≤ v) → scoreMax ms a ≤ v := by
  intro ms
  induction ms with
  | nil => intro a v ha _; exact ha
  | cons m ms ih =>
    intro a v ha hall
    exact ih _ _ (max_le ha (hall m (List.mem_cons_self m ms))) fun m2 h2 =>
      hall m2 (List.mem_cons_of_mem m h2)

theorem le_scoreMax_of_mem : ∀ (ms : List MoveExt) (a : Int) (m : MoveExt),
    m ∈ ms → moveScore m ≤ scoreMax ms a := by
  intro ms
  induction ms with
  | nil => intro a m h; cases h
  | cons m2 ms ih =>
    intro a m h
    rcases List.mem_cons.mp h with h | h
    · subst h
      exact (le_max_right a (moveScore m)).trans (scoreMax_ge ms _)
    · exact ih _ m h

theorem scoreMax_exists : ∀ (ms : List MoveExt) (a : Int),
    a < scoreMax ms a → ∃ m ∈ ms, moveScore m = scoreMax ms a := by
  intro ms
  induction ms with
  | nil => intro a h; exact absurd h (lt_irrefl a)
  | cons m ms ih =>
    intro a h
    rw [scoreMax_cons] at h ⊢
    rcases lt_or_le (max a (moveScore m)) (scoreMax ms (max a (moveScore m)))
      with h2 | h2
    · obtain ⟨m2, hm2, he⟩ := ih _ h2
      exact ⟨m2, List.mem_cons_of_mem m hm2, he⟩
    · have heq : scoreMax ms (max a (moveScore m)) = max a (moveScore m) :=
        le_antisymm h2 (scoreMax_ge ms _)
      refine ⟨m, List.mem_cons_self m ms, ?_⟩
      rw [heq]
      rcases max_cases a (moveScore m) with ⟨h3, _⟩ | ⟨h3, _⟩
      · rw [heq, h3] at h
        exact absurd h (lt_irrefl a)
      · rw [h3]

/-- The running pair `(best, bestScore)` of the greedy loop: its score
component is the running maximum. -/
theorem greedyGo_snd : ∀ (ms : List MoveExt) (best : Option MoveExt) (a : Int),
    (greedyGo ms best a).2 = scoreMax ms a := by
  intro ms
  induction ms with
  | nil => intro best a; rfl
  | cons m ms ih =>
    intro best a
    rw [scoreMax_cons]
    simp only [greedyGo]
    split
    · rw [ih, max_eq_right (le_of_lt (by assumption))]
    · rw [ih, max_eq_left (le_of_not_lt (by assumption))]

/-- The greedy loop keeps the first move achieving the running maximum,
provided some move beats the seed; otherwise it keeps the seed `best`. -/
theorem greedyGo_fst : ∀ (ms : List MoveExt) (best : Option MoveExt) (a : Int),
    (greedyGo ms best a).1 =
      if a < scoreMax ms a then
        ms.find? (fun m => moveScore m == scoreMax ms a)
      else best := by
  intro ms
  induction ms with
  | nil =>
    intro best a
    simp [greedyGo, scoreMax_nil]
  | cons m ms ih =>
    intro best a
    rw [scoreMax_cons]
    simp only [greedyGo]
    by_cases hlt : a < moveScore m
    · rw [if_pos hlt, ih]
      have hmax : max a (moveScore m) = moveScore m := max_eq_right hlt.le
      rw [hmax]
      have hcond : a < scoreMax ms (moveScore m) :=
        lt_of_lt_of_le hlt (scoreMax_ge ms _)
      rw [if_pos hcond]
      rcases eq_or_lt_of_le (scoreMax_ge ms (moveScore m)) with heq | hne
      · rw [if_neg (by rw [← heq]; exact lt_irrefl _)]
        rw [List.find?_cons, ← heq]
        simp
      · rw [if_pos hne, List.find?_cons]
        have : (moveScore m == scoreMax ms (moveScore m)) = false := by
          simp [hne.ne]
        rw [this]
    · rw [if_neg hlt, ih]
      have hmax : max a (moveScore m) = a := max_eq_left (le_of_not_lt hlt)
      rw [hmax]
      by_cases hcond : a < scoreMax ms a
      · rw [if_pos hcond, if_pos hcond, List.find?_cons]
        have hm : moveScore m < scoreMax ms a :=
          lt_of_le_of_lt (le_of_not_lt hlt) hcond
        have : (moveScore m == scoreMax ms a) = false := by
          simp [hm.ne]
        rw [this]
      · rw [if_neg hcond, if_neg hcond]

/-- Lemma: `find?` returns the unique element satisfying the predicate. -/
theorem find_unique {p : MoveExt → Bool} :
    ∀ (l : List MoveExt) (c : MoveExt), c ∈ l → p c = true →
      (∀ m ∈ l, p m = true → m = c) → l.find? p = some c := by
  intro l
  induction l with
  | nil => intro c hc _ _; cases hc
  | cons h t ih =>
    intro c hc hpc huniq
    rw [List.find?_cons]
    by_cases hph : p h = true
    · rw [hph]
      exact congrArg some (huniq h (List.mem_cons_self h t) hph)
    · rw [Bool.of_not_eq_true hph]
      rcases List.mem_cons.mp hc with h2 | h2
      · exact absurd (h2 ▸ hpc) hph
      · exact ih c h2 hpc fun m hm hpm => huniq m (List.mem_cons_of_mem h hm) hpm

theorem VAL_nonneg (pk : PKind) : 0 ≤ VAL pk := by cases pk <;> decide

theorem VAL_le (pk : PKind) : VAL pk ≤ 900 := by cases pk <;> decide

/-- Every one-ply score is at least `-899`, hence above the `-1e15`
sentinel: the greedy loop always selects some move. -/
theorem moveScore_lb (m : MoveExt) : -899 ≤ moveScore m := by
  have h3 := VAL_nonneg m.piece
  have h4 := VAL_le m.piece
  cases hcap : m.captured with
  | none =>
    simp only [moveScore, hcap]
    split <;> omega
  | some c =>
    have h5 := VAL_nonneg c
    simp only [moveScore, hcap]
    split <;> omega

theorem sentinel_lt_moveScore (m : MoveExt) : -(10 ^ 15 : Int) < moveScore m :=
  lt_of_lt_of_le (by norm_num) (moveScore_lb m)

end greedy

namespace legality

open mainjs

variable {Pos : Type}

theorem ne_nil_of_not_isEmpty {α : Type} {l : List α}
    (h : ¬l.isEmpty = true) : l ≠ [] := by
  intro he
  subst he
  exact h rfl

theorem goMax_isFin (f : MoveExt → EInt → EInt → EInt)
    (hf : ∀ m a b, EInt.isFin (f m a b)) :
    ∀ (ms : List MoveExt) (val alpha beta : EInt), val ≠ .posInf →
      (val = .negInf → ms ≠ []) → EInt.isFin (goMax f ms val alpha beta) := by
  intro ms
  induction ms with
  | nil =>
    intro val alpha beta htop hbot
    cases val with
    | negInf => exact absurd rfl (hbot rfl)
    | fin n => exact EInt.isFin_fin n
    | posInf => exact absurd rfl htop
  | cons m ms ih =>
    intro val alpha beta htop hbot
    have hval : EInt.isFin (max val (f m alpha beta)) := by
      refine EInt.isFin_max ?_ (hf m alpha beta)
      cases val with
      | negInf => exact Or.inr rfl
      | fin n => exact Or.inl (EInt.isFin_fin n)
      | posInf => exact absurd rfl htop
    simp only [goMax]
    split
    · exact hval
    · exact ih _ _ _ (EInt.ne_posInf_of_isFin hval)
        (fun h => absurd h (EInt.ne_negInf_of_isFin hval))

theorem goMin_isFin (f : MoveExt → EInt → EInt → EInt)
    (hf : ∀ m a b, EInt.isFin (f m a b)) :
    ∀ (ms : List MoveExt) (val alpha beta : EInt), val ≠ .negInf →
      (val = .posInf → ms ≠ []) → EInt.isFin (goMin f ms val alpha beta) := by
  intro ms
  induction ms with
  | nil =>
    intro val alpha beta hbot htop
    cases val with
    | negInf => exact absurd rfl hbot
    | fin n => exact EInt.isFin_fin n
    | posInf => exact absurd rfl (htop rfl)
  | cons m ms ih =>
    intro val alpha beta hbot htop
    have hval : EInt.isFin (min val (f m alpha beta)) := by
      refine EInt.isFin_min ?_ (hf m alpha beta)
      cases val with
      | negInf => exact absurd rfl hbot
      | fin n => exact Or.inl (EInt.isFin_fin n)
      | posInf => exact Or.inr rfl
    simp only [goMin]
    split
    · exact hval
    · exact ih _ _ _ (EInt.ne_negInf_of_isFin hval)
        (fun h => absurd h (EInt.ne_posInf_of_isFin hval))

/-- The value of `search` is always a finite number: `evaluate` is finite
and the loops are seeded so that the first child makes them finite. -/
theorem search_isFin (R : Rules Pos) (d : Nat) :
    ∀ (g : Pos) (a b : EInt), EInt.isFin (search R d g a b) := by
  induction d with
  | zero => intro g a b; exact EInt.isFin_fin _
  | succ d ih =>
    intro g a b
    simp only [search]
    split
    · exact EInt.isFin_fin _
    · split
      · exact EInt.isFin_fin _
      · split
        · exact goMax_isFin _ (fun m a b => ih (R.apply g m) a b) _ _ _ _
            (by simp) (fun _ => ne_nil_of_not_isEmpty (by assumption))
        · exact goMin_isFin _ (fun m a b => ih (R.apply g m) a b) _ _ _ _
            (by simp) (fun _ => ne_nil_of_not_isEmpty (by assumption))

/-- The root loop either keeps the current best or selects a member of
the remaining list. -/
theorem rootGo_mem (f : MoveExt → EInt) (aiW : Bool) :
    ∀ (ms : List MoveExt) (acc : Option MoveExt × EInt),
      (rootGo f aiW ms acc).1 = acc.1 ∨
        ∃ m ∈ ms, (rootGo f aiW ms acc).1 = some m := by
  intro ms
  induction ms with
  | nil => intro acc; exact Or.inl rfl
  | cons m ms ih =>
    intro acc
    obtain ⟨best, bs⟩ := acc
    simp only [rootGo]
    by_cases hcond : (if aiW = true then bs < f m else f m < bs)
    · rw [if_pos hcond]
      rcases ih (some m, f m) with h | ⟨m2, hm2, h⟩
      · exact Or.inr ⟨m, List.mem_cons_self m ms, h⟩
      · exact Or.inr ⟨m2, List.mem_cons_of_mem m hm2, h⟩
    · rw [if_neg hcond]
      rcases ih (best, bs) with h | ⟨m2, hm2, h⟩
      · exact Or.inl h
      · exact Or.inr ⟨m2, List.mem_cons_of_mem m hm2, h⟩

/-- A root loop over a non-empty list whose first value beats the seed
selects some member of the list. -/
theorem rootGo_cons_mem (f : MoveExt → EInt) (aiW : Bool) (m1 : MoveExt)
    (rest : List MoveExt) (seed : EInt)
    (himp : if aiW = true then seed < f m1 else f m1 < seed) :
    ∃ m ∈ m1 :: rest, (rootGo f aiW (m1 :: rest) (none, seed)).1 = some m := by
  simp only [rootGo]
  rw [if_pos himp]
  rcases rootGo_mem f aiW rest (some m1, f m1) with h | ⟨m2, hm2, h⟩
  · exact ⟨m1, List.mem_cons_self m1 rest, h⟩
  · exact ⟨m2, List.mem_cons_of_mem m1 hm2, h⟩

/-- On a non-empty move list, the root loop of `minimaxPickMain` selects
some member of the list: the first root value is finite, hence strictly
better than the `±Infinity` seed. -/
theorem minimaxRoot_mem (R : Rules Pos) (g : Pos) (d : Nat) (c : Bool)
    (m1 : MoveExt) (rest : List MoveExt) (hms : R.moves g = m1 :: rest) :
    ∃ m ∈ R.moves g, (minimaxRoot R g d c).1 = some m := by
  have hfin : EInt.isFin (search R (d - 1) (R.apply g m1) .negInf .posInf) :=
    search_isFin R (d - 1) _ _ _
  unfold minimaxRoot
  rw [hms]
  simp only [List.isEmpty_cons, Bool.false_eq_true, if_false]
  cases c with
  | true =>
    simp only [if_true]
    exact rootGo_cons_mem _ true m1 rest .negInf
      (by simpa using EInt.negInf_lt_of_isFin hfin)
  | false =>
    simp only [Bool.false_eq_true, if_false]
    exact rootGo_cons_mem _ false m1 rest .posInf
      (by simpa using EInt.lt_posInf_of_isFin hfin)

end legality

namespace evalprops

open mainjs

variable {Pos : Type}

theorem evaluate_checkmate (R : Rules Pos) (g : Pos)
    (h : R.isCheckmate g = true) :
    evaluate R g = if R.turnW g then -1000000000 else 1000000000 := by
  simp [evaluate, h]

theorem evaluate_draw (R : Rules Pos) (g : Pos)
    (hmate : R.isCheckmate g = false)
    (h : R.isDraw g = true ∨ R.isStalemate g = true) :
    evaluate R g = 0 := by
  rcases h with h | h <;> simp [evaluate, hmate, h]

theorem row_sum (f : SqPiece → Int) :
    ∀ (row : List (Option SqPiece)),
      (row.map (fun sq => match sq with
        | none => 0
        | some s => f s)).sum = ((row.filterMap id).map f).sum := by
  intro row
  induction row with
  | nil => rfl
  | cons sq t ih =>
    cases sq with
    | none => simpa using ih
    | some s => simpa using ih

theorem board_sum (f : SqPiece → Int) :
    ∀ (b : List (List (Option SqPiece))),
      (b.map (fun row => (row.map (fun sq => match sq with
        | none => 0
        | some s => f s)).sum)).sum =
      ((b.flatten.filterMap id).map f).sum := by
  intro b
  induction b with
  | nil => rfl
  | cons row t ih =>
    simp only [List.map_cons, List.sum_cons, List.flatten_cons,
      List.filterMap_append, List.map_append, List.sum_append]
    rw [row_sum, ih]

/-- On a non-terminal position the evaluator computes exactly the
material + mobility + check formula of the spec. -/
theorem evaluate_open (R : Rules Pos) (g : Pos)
    (h1 : R.isCheckmate g = false) (h2 : R.isDraw g = false)
    (h3 : R.isStalemate g = false) (h4 : R.isInsufficientMaterial g = false)
    (h5 : R.isThreefoldRepetition g = false) :
    evaluate R g = spec.evaluate R g := by
  simp only [evaluate, spec.evaluate, h1, h2, h3, h4, h5, Bool.false_eq_true,
    if_false, Bool.or_self]
  rw [board_sum (fun s => if s.colorW then VAL s.tp else -VAL s.tp)]
  cases hT : R.turnW g <;> cases hC : R.inCheck g <;> simp

end evalprops

namespace claims

open mainjs

/-- C1: for every Position, every `depthLimit ≥ 1` and every aiColor, the
move selected and the score computed by the alpha-beta strategies
(`minimaxPickMain` of App.tsx and `minimaxPick` of the worker) equal the
move and score of the unpruned full minimax search of the same depth over
the same game tree, with the same evaluator and the same enumeration
order. -/
theorem C1_alphabeta_equals_full_minimax {Pos : Type} (R : Rules Pos)
    (g : Pos) (depthLimit : Nat) (aiColorW : Bool) (_hd : 1 ≤ depthLimit) :
    minimaxRoot R g depthLimit aiColorW =
        spec.minimaxRootFull R g depthLimit aiColorW ∧
      minimaxPickMain R g depthLimit aiColorW =
        (spec.minimaxRootFull R g depthLimit aiColorW).1.map toShort ∧
      workerjs.minimaxPick R g depthLimit aiColorW =
        (spec.minimaxRootFull R g depthLimit aiColorW).1.map toShort := by
  have hroot : minimaxRoot R g depthLimit aiColorW =
      spec.minimaxRootFull R g depthLimit aiColorW := by
    simp only [minimaxRoot, spec.minimaxRootFull]
    by_cases h : (R.moves g).isEmpty = true
    · rw [if_pos h, if_pos h]
    · rw [if_neg h, if_neg h]
      exact rootGo_congr aiColorW
        (fun m => ab.search_eq_minimax R (depthLimit - 1) (R.apply g m)) _ _
  have hpick : minimaxPickMain R g depthLimit aiColorW =
      (spec.minimaxRootFull R g depthLimit aiColorW).1.map toShort := by
    unfold minimaxPickMain
    rw [hroot]
    by_cases h : (R.moves g).isEmpty = true
    · rw [if_pos h]
      simp [spec.minimaxRootFull, h]
    · rw [if_neg h]
  exact ⟨hroot, hpick, by rw [equiv.minimaxPick_eq]; exact hpick⟩

theorem C1_witness :
    1 ≤ 2 ∧
      (minimaxRoot c1Rules 0 2 true = spec.minimaxRootFull c1Rules 0 2 true ∧
        minimaxPickMain c1Rules 0 2 true =
          (spec.minimaxRootFull c1Rules 0 2 true).1.map toShort ∧
        workerjs.minimaxPick c1Rules 0 2 true =
          (spec.minimaxRootFull c1Rules 0 2 true).1.map toShort) :=
  ⟨by decide, C1_alphabeta_equals_full_minimax c1Rules 0 2 true (by decide)⟩

/-- C3: at the end of any Strategy invocation (random, greedy, minimax)
the live Position's serialized form (FEN) is identical to its form at
invocation start: every move applied during search is undone, so search
never leaks a mutation. -/
theorem C3_strategy_preserves_serialization {Pos : Type} (R : Rules Pos)
    (s : GState Pos) (x : ℚ) (depthLimit : Nat) (aiColorW : Bool) :
    R.fen (randomPickS R s x).2.cur = R.fen s.cur ∧
      R.fen (greedyPickS R s x).2.cur = R.fen s.cur ∧
      R.fen (minimaxPickMainS R s depthLimit aiColorW).2.cur = R.fen s.cur := by
  refine ⟨rfl, rfl, ?_⟩
  rw [minimaxPickMainS_spec]

/-- C6: for a fixed Position (FEN), strategy, depth and aiColor, the
background implementations (`randomPicker`/`greedyPicker`/`minimaxPick`
and the worker `onmessage` dispatch) compute the same move as the
foreground fallback implementations
(`randomPick`/`greedyPick`/`minimaxPickMain` and the `doFallback`
dispatch). -/
theorem C6_worker_equals_fallback_paths {Pos : Type} (R : Rules Pos)
    (g : Pos) (depth : Nat) (aiColorW : Bool) (x : ℚ) (id : Nat)
    (fen : String) (mode : AiMode) :
    workerjs.randomPicker R g x = randomPick R g x ∧
      workerjs.greedyPicker R g x = greedyPick R g x ∧
      workerjs.minimaxPick R g depth aiColorW =
        minimaxPickMain R g depth aiColorW ∧
      (workerjs.handle R ⟨id, fen, mode, depth, aiColorW⟩ x).2 =
        fallbackPick R mode (R.load fen) depth aiColorW x :=
  ⟨equiv.randomPicker_eq R g x, equiv.greedyPicker_eq R g x,
    equiv.minimaxPick_eq R g depth aiColorW,
    equiv.handle_eq R ⟨id, fen, mode, depth, aiColorW⟩ x⟩

/-- C7: on a Position that is none of checkmate/draw/stalemate/
insufficient-material/threefold, the evaluator returns exactly the
material sum (pawn 100, knight 320, bishop 330, rook 500, queen 900,
king 0; White adds, Black subtracts) plus `min(legal, 30)` in the side
to move's favour plus the `∓15` check term — `spec.evaluate` is that
formula transcribed from the spec. -/
theorem C7_evaluator_open_formula {Pos : Type} (R : Rules Pos) (g : Pos)
    (h1 : R.isCheckmate g = false) (h2 : R.isDraw g = false)
    (h3 : R.isStalemate g = false) (h4 : R.isInsufficientMaterial g = false)
    (h5 : R.isThreefoldRepetition g = false) :
    evaluate R g = spec.evaluate R g :=
  evalprops.evaluate_open R g h1 h2 h3 h4 h5

theorem C7_witness :
    c7Rules.isCheckmate () = false ∧ c7Rules.isDraw () = false ∧
      c7Rules.isStalemate () = false ∧
      c7Rules.isInsufficientMaterial () = false ∧
      c7Rules.isThreefoldRepetition () = false ∧
      evaluate c7Rules () = spec.evaluate c7Rules () ∧
      evaluate c7Rules () = -813 :=
  ⟨rfl, rfl, rfl, rfl, rfl,
    C7_evaluator_open_formula c7Rules () rfl rfl rfl rfl rfl, by decide⟩

/-- C9: the Greedy Strategy scores each legal move as 0, plus
`captured − piece + 1` if it captures, plus `10^9` for a mate mark or
else `5` for a check mark, and returns the first move in enumeration
order achieving the maximum score (strict `>`, first-encountered wins):
`greedyPick` coincides with `spec.greedyPick`, the max-then-first-achiever
formulation of the spec sentence, for every Position and every random
draw. -/
theorem C9_greedy_first_max_score {Pos : Type} (R : Rules Pos) (g : Pos)
    (x : ℚ) : greedyPick R g x = spec.greedyPick R g := by
  simp only [greedyPick, spec.greedyPick]
  cases hms : R.moves g with
  | nil => rfl
  | cons m t =>
    simp only [List.isEmpty_cons, Bool.false_eq_true, if_false]
    have hsent : -(10 ^ 15 : Int) < greedy.scoreMax (m :: t) (-(10 ^ 15)) :=
      lt_of_lt_of_le (greedy.sentinel_lt_moveScore m)
        (greedy.le_scoreMax_of_mem (m :: t) _ m (List.mem_cons_self m t))
    have hM : greedy.scoreMax (m :: t) (-(10 ^ 15)) =
        t.foldl (fun a m2 => max a (moveScore m2)) (moveScore m) := by
      rw [greedy.scoreMax_cons,
        max_eq_right (greedy.sentinel_lt_moveScore m).le]
      rfl
    rw [greedy.greedyGo_fst, if_pos hsent, hM]
    obtain ⟨m2, hm2, hscore⟩ := greedy.scoreMax_exists (m :: t) _ hsent
    rw [hM] at hscore
    cases hfind : (m :: t).find? (fun m3 =>
        moveScore m3 == t.foldl (fun a m4 => max a (moveScore m4)) (moveScore m)) with
    | none =>
      exfalso
      have hnone := List.find?_eq_none.mp hfind m2 hm2
      simp [hscore] at hnone
    | some b => rfl

/-- C2 is false as stated: `evaluate` tests checkmate before the draw
conditions, so a Position on which `isDraw` holds can evaluate to
`±10^9` rather than exactly `0` when it is also a checkmate. -/
theorem C2_counterexample :
    c2Rules.isDraw () = true ∧ evaluate c2Rules () = 1000000000 ∧
      ¬evaluate c2Rules () = 0 := by decide

/-- C2 (amended): a checkmate Position evaluates to `-10^9` when White
is to move and `+10^9` when Black is to move; a Position on which
`isDraw` or `isStalemate` holds evaluates to exactly `0` — overriding
material, mobility and check — provided it is not also reported
checkmate, since the checkmate override is tested first. -/
theorem C2_amended_evaluator_sentinels {Pos : Type} (R : Rules Pos)
    (g : Pos) :
    (R.isCheckmate g = true →
      evaluate R g = if R.turnW g then -1000000000 else 1000000000) ∧
    (R.isCheckmate g = false → R.isDraw g = true ∨ R.isStalemate g = true →
      evaluate R g = 0) :=
  ⟨evalprops.evaluate_checkmate R g, evalprops.evaluate_draw R g⟩

theorem C2_witness :
    evaluate c2Rules () = 1000000000 ∧ evaluate c2DrawRules () = 0 :=
  ⟨by
    have h := (C2_amended_evaluator_sentinels c2Rules ()).1 rfl
    simpa using h,
    (C2_amended_evaluator_sentinels c2DrawRules ()).2 rfl (Or.inl rfl)⟩

/-- C5 is false as stated: on a Position where `isGameOver` holds but
legal moves remain, every strategy returns a move, not "no move" — the
strategies test only the emptiness of the move list. -/
theorem C5_counterexample :
    c5Rules.isGameOver () = true ∧
      randomPick c5Rules () 0 ≠ none ∧
      greedyPick c5Rules () 0 ≠ none ∧
      minimaxPickMain c5Rules () 3 true ≠ none := by
  refine ⟨rfl, ?_, by decide, by decide⟩
  have h : randomPick c5Rules () 0 = some ⟨"a2", "a3", none⟩ := by
    simp [randomPick, c5Rules, toShort]
  simp [h]

/-- C5 (amended): every strategy returns "no move" exactly when the
Position has no legal moves (which covers checkmate and stalemate), and
on a Position with at least one legal move returns the short form of a
member of `legalMoves(position)` — even when `isGameOver` holds, since a
drawn game-over Position can still have legal moves. -/
theorem C5_amended_legal_move_contract {Pos : Type} (R : Rules Pos)
    (g : Pos) (x : ℚ) (d : Nat) (c : Bool) :
    (R.moves g = [] →
      randomPick R g x = none ∧ greedyPick R g x = none ∧
        minimaxPickMain R g d c = none) ∧
    (R.moves g ≠ [] → 0 ≤ x → x < 1 →
      (∃ m ∈ R.moves g, randomPick R g x = some (toShort m)) ∧
        (∃ m ∈ R.moves g, greedyPick R g x = some (toShort m)) ∧
        (∃ m ∈ R.moves g, minimaxPickMain R g d c = some (toShort m))) := by
  constructor
  · intro he
    refine ⟨?_, ?_, ?_⟩ <;> simp [randomPick, greedyPick, minimaxPickMain, he]
  · intro hne hx0 hx1
    have hempty : (R.moves g).isEmpty = false := by
      cases hm : R.moves g with
      | nil => exact absurd hm hne
      | cons a b => rfl
    have hlen : 0 < (R.moves g).length := List.length_pos.mpr hne
    refine ⟨?_, ?_, ?_⟩
    · -- random: the floor of x * length is a valid index
      have hq : (0 : ℚ) < ((R.moves g).length : ℚ) := by exact_mod_cast hlen
      have hfl0 : 0 ≤ ⌊x * ((R.moves g).length : ℚ)⌋ :=
        Int.floor_nonneg.mpr (mul_nonneg hx0 hq.le)
      have hflt : ⌊x * ((R.moves g).length : ℚ)⌋ < ((R.moves g).length : ℤ) := by
        rw [Int.floor_lt]
        push_cast
        exact mul_lt_of_lt_one_left hq hx1
      have hi : Int.toNat ⌊x * ((R.moves g).length : ℚ)⌋ < (R.moves g).length := by
        rw [← Int.toNat_lt' (by omega : (R.moves g).length ≠ 0)] at hflt
        exact hflt
      refine ⟨(R.moves g).get ⟨_, hi⟩, List.get_mem _ _ hi, ?_⟩
      simp only [randomPick, hempty, Bool.false_eq_true, if_false]
      rw [List.get?_eq_get hi]
      rfl
    · -- greedy: the selected move comes out of find?
      obtain ⟨m, t, hms⟩ : ∃ m t, R.moves g = m :: t := by
        cases hm : R.moves g with
        | nil => exact absurd hm hne
        | cons a b => exact ⟨a, b, rfl⟩
      have hsent : -(10 ^ 15 : Int) < greedy.scoreMax (R.moves g) (-(10 ^ 15)) := by
        rw [hms]
        exact lt_of_lt_of_le (greedy.sentinel_lt_moveScore m)
          (greedy.le_scoreMax_of_mem (m :: t) _ m (List.mem_cons_self m t))
      obtain ⟨m2, hm2, hscore⟩ :=
        greedy.scoreMax_exists (R.moves g) (-(10 ^ 15)) hsent
      cases hfind : (R.moves g).find? (fun m3 =>
          moveScore m3 == greedy.scoreMax (R.moves g) (-(10 ^ 15))) with
      | none =>
        exfalso
        have hnone := List.find?_eq_none.mp hfind m2 hm2
        simp [hscore] at hnone
      | some b =>
        refine ⟨b, List.mem_of_find?_eq_some hfind, ?_⟩
        simp only [greedyPick, hempty, Bool.false_eq_true, if_false]
        rw [greedy.greedyGo_fst, if_pos hsent, hfind]
    · -- minimax: the root loop selects a member
      obtain ⟨m, t, hms⟩ : ∃ m t, R.moves g = m :: t := by
        cases hm : R.moves g with
        | nil => exact absurd hm hne
        | cons a b => exact ⟨a, b, rfl⟩
      obtain ⟨m2, hm2, hroot⟩ := legality.minimaxRoot_mem R g d c m t hms
      refine ⟨m2, hm2, ?_⟩
      simp only [minimaxPickMain, hempty, Bool.false_eq_true, if_false]
      rw [hroot]
      rfl

theorem C5_witness :
    (randomPick c5wRules 0 0 = none ∧ greedyPick c5wRules 0 0 = none ∧
        minimaxPickMain c5wRules 0 2 true = none) ∧
      ((∃ m ∈ c5wRules.moves 1, randomPick c5wRules 1 0 = some (toShort m)) ∧
        (∃ m ∈ c5wRules.moves 1, greedyPick c5wRules 1 0 = some (toShort m)) ∧
        (∃ m ∈ c5wRules.moves 1, minimaxPickMain c5wRules 1 2 true =
          some (toShort m))) :=
  ⟨(C5_amended_legal_move_contract c5wRules 0 0 2 true).1 rfl,
    (C5_amended_legal_move_contract c5wRules 1 0 2 true).2 (by decide)
      (by norm_num) (by norm_num)⟩

/-- C8 is false as stated: when the unique ≥300 capture is made by a more
valuable piece its score `captured − piece + 1` is negative, so the
greedy strategy prefers a quiet move (score 0) over it. -/
theorem C8_counterexample :
    (∀ m ∈ c8Rules.moves (), m.san.data.contains '#' = false ∧
        m.san.data.contains '+' = false) ∧
      (∀ m ∈ c8Rules.moves (), m.captured ≠ none → m = c8CapMove) ∧
      c8CapMove.captured = some .n ∧ 300 ≤ VAL .n ∧
      greedyPick c8Rules () 0 = some (toShort c8QuietMove) ∧
      ¬greedyPick c8Rules () 0 = some (toShort c8CapMove) := by decide

/-- C8 (amended): if exactly one legal move captures, the captured piece
has value ≥ 300 and at least the value of the capturing piece, and no
legal move's SAN marks check or checkmate, then the Greedy Strategy
returns that capturing move. -/
theorem C8_amended_greedy_single_capture {Pos : Type} (R : Rules Pos)
    (g : Pos) (x : ℚ) (c : MoveExt) (cp : PKind) (hc : c ∈ R.moves g)
    (hcap : c.captured = some cp) (_hval : 300 ≤ VAL cp)
    (hpc : VAL c.piece ≤ VAL cp)
    (hmarks : ∀ m ∈ R.moves g, m.san.data.contains '#' = false ∧
      m.san.data.contains '+' = false)
    (huniq : ∀ m ∈ R.moves g, m.captured ≠ none → m = c) :
    greedyPick R g x = some (toShort c) := by
  have hscorec : moveScore c = VAL cp - VAL c.piece + 1 := by
    obtain ⟨h1, h2⟩ := hmarks c hc
    have h1b : '#' ∉ c.san.data := by simpa using h1
    have h2b : '+' ∉ c.san.data := by simpa using h2
    simp [moveScore, hcap, h1b, h2b]
  have hscorec1 : 1 ≤ moveScore c := by rw [hscorec]; omega
  have hother : ∀ m ∈ R.moves g, m ≠ c → moveScore m = 0 := by
    intro m hm hne
    have hcapm : m.captured = none := by
      by_contra hcm
      exact hne (huniq m hm hcm)
    obtain ⟨h1, h2⟩ := hmarks m hm
    have h1b : '#' ∉ m.san.data := by simpa using h1
    have h2b : '+' ∉ m.san.data := by simpa using h2
    simp [moveScore, hcapm, h1b, h2b]
  have hle : ∀ m ∈ R.moves g, moveScore m ≤ moveScore c := by
    intro m hm
    by_cases hmc : m = c
    · rw [hmc]
    · rw [hother m hm hmc]
      omega
  have hM : greedy.scoreMax (R.moves g) (-(10 ^ 15)) = moveScore c :=
    le_antisymm (greedy.scoreMax_le _ _ _ (by omega) hle)
      (greedy.le_scoreMax_of_mem _ _ c hc)
  have hempty : (R.moves g).isEmpty = false := by
    cases hm : R.moves g with
    | nil => rw [hm] at hc; cases hc
    | cons a b => rfl
  have hfind : (R.moves g).find? (fun m =>
      moveScore m == greedy.scoreMax (R.moves g) (-(10 ^ 15))) = some c := by
    rw [hM]
    refine greedy.find_unique (R.moves g) c hc (by simp) ?_
    intro m hm hpm
    have hms : moveScore m = moveScore c := by simpa using hpm
    by_cases hmc : m = c
    · exact hmc
    · rw [hother m hm hmc] at hms
      omega
  simp only [greedyPick, hempty, Bool.false_eq_true, if_false]
  rw [greedy.greedyGo_fst, if_pos (by omega : -(10 ^ 15 : Int) <
    greedy.scoreMax (R.moves g) (-(10 ^ 15))), hfind]

theorem C8_witness :
    c8wCapMove ∈ c8wRules.moves () ∧
      greedyPick c8wRules () 0 = some (toShort c8wCapMove) :=
  ⟨by decide,
    C8_amended_greedy_single_capture c8wRules () 0 c8wCapMove .q (by decide)
      rfl (by decide) (by decide) (by decide) (by decide)⟩

/-- C10 is false as stated: when `gameRef.current.move(move)` is rejected
the handlers take the `if (ok)` false branch and return normally — the
game and FEN are untouched, the thinking flags are cleared, and no
assertion or error of any kind is raised; the failure is silently
swallowed, not loud. -/
theorem C10_counterexample :
    fallbackPick c10Rules .greedy () 3 true 0 = some (toShort c10Move) ∧
      c10Rules.tryApply () (toShort c10Move) = none ∧
      doFallback c10Rules c10State () .greedy 3 true 0 =
        { c10State with thinking := false, isThinking := false } ∧
      onMessage c10Rules c10State (1, some (toShort c10Move)) =
        { c10State with thinking := false, isThinking := false } := by decide

/-- C10 (amended): if the rules engine rejects the move a Strategy
produced, both handlers (`onmessage` and `doFallback`) silently skip the
application: they return normally with the authoritative game and the
FEN unchanged and only the thinking flags cleared — no assertion or
failure is surfaced. -/
theorem C10_amended_rejected_move_swallowed {Pos : Type} (R : Rules Pos)
    (s : AppState Pos) (mv : MoveObj) (g : Pos) (mode : AiMode)
    (depth : Nat) (c : Bool) (x : ℚ)
    (hrej : R.tryApply s.game mv = none) :
    onMessage R s (s.reqId, some mv) =
        { s with thinking := false, isThinking := false } ∧
      (fallbackPick R mode g depth c x = some mv →
        doFallback R s g mode depth c x =
          { s with thinking := false, isThinking := false }) := by
  constructor
  · simp [onMessage, hrej]
  · intro hp
    simp [doFallback, hp, hrej]

theorem C10_witness :
    c10Rules.tryApply c10State.game (toShort c10Move) = none ∧
      onMessage c10Rules c10State (c10State.reqId, some (toShort c10Move)) =
        { c10State with thinking := false, isThinking := false } ∧
      doFallback c10Rules c10State () .greedy 3 true 0 =
        { c10State with thinking := false, isThinking := false } :=
  ⟨rfl,
    (C10_amended_rejected_move_swallowed c10Rules c10State (toShort c10Move)
      () .greedy 3 true 0 rfl).1,
    (C10_amended_rejected_move_swallowed c10Rules c10State (toShort c10Move)
      () .greedy 3 true 0 rfl).2 (by decide)⟩

/-- C4: the code evaluated on the timeout trace (request id 1, deadline
fires, fallback applies a move, the background response for the same
request arrives afterwards).  `doFallback` does not invalidate
`reqIdRef`, so the late response carries the SAME id as the current
request id — not a stale one —, passes the `onmessage` id gate, and its
move is applied to the authoritative game state (the game changes from
`1` to `2`), contradicting "carries a stale id, is discarded, and is
never applied". -/
theorem C4_late_response_same_id_applied :
    c4AfterFallback.game = 1 ∧ c4AfterFallback.thinking = false ∧
      c4Resp.1 = c4AfterFallback.reqId ∧
      (onMessage c4Rules c4AfterFallback c4Resp).game = 2 ∧
      ¬onMessage c4Rules c4AfterFallback c4Resp = c4AfterFallback := by decide

end claims

end ChessAI
